import Mathlib

/-!
Verification of the propositional-logic solver (`script.js`): tokenizer,
recursive-descent parser, canonical printer, boolean evaluator, truth-table
checker, forward-chaining natural-deduction engine and proof orchestrator.
The definitions below are shallow embeddings of the corresponding JavaScript
functions, keeping their names where Lean allows it.
-/

/-- Expression trees built by the parser: `{type: 'var'|'not'|'and'|'or'|'imp', ...}`. -/
inductive Expr where
  | var (name : String)
  | not (expr : Expr)
  | and (left : Expr) (right : Expr)
  | or (left : Expr) (right : Expr)
  | imp (left : Expr) (right : Expr)
deriving DecidableEq, Repr

/-- The characters that `tokenize` surrounds with spaces
(`(`, `)`, `~`, `&`, `|`); `->` is handled as a digraph. -/
def isSpecialChar (c : Char) : Bool :=
  c = '(' || c = ')' || c = '~' || c = '&' || c = '|'

/-- The sequence of global replacements in `tokenize`: `->` first (so the
digraph is not split), then each single special character, each surrounded
by spaces.  A single left-to-right scan is equivalent because no
replacement creates or destroys an occurrence handled by another. -/
def preprocess : List Char → List Char
  | [] => []
  | '-' :: '>' :: rest => ' ' :: '-' :: '>' :: ' ' :: preprocess rest
  | c :: rest =>
    if isSpecialChar c then ' ' :: c :: ' ' :: preprocess rest
    else c :: preprocess rest

/-- `s.trim().split(/\s+/).filter(Boolean)`: split on whitespace, dropping
empty pieces.  `cur` accumulates the current word in reverse. -/
def wordsAux : List Char → List Char → List String
  | [], cur => if cur.isEmpty then [] else [String.mk cur.reverse]
  | c :: rest, cur =>
    if c.isWhitespace then
      if cur.isEmpty then wordsAux rest [] else String.mk cur.reverse :: wordsAux rest []
    else wordsAux rest (c :: cur)

/-- `tokenize(s)` from `script.js`. -/
def tokenize (s : String) : List String :=
  wordsAux (preprocess s.data) []

/-- The three parse failures thrown by `parseFromString`. -/
inductive ParseError where
  | unexpectedEnd
  | missingClose
  | unexpectedToken (t : String)
deriving DecidableEq, Repr

/-- Result of a recursive-descent step: the parsed expression and the
remaining tokens.  The length bound on the remainder is bookkeeping for
termination of the mutual recursion; the JavaScript uses a mutable index. -/
abbrev PRes (toks : List String) :=
  Except ParseError (Expr × { l : List String // l.length ≤ toks.length })

/-- Weaken the remainder bound of a parse result. -/
def weakenP {n m : Nat} (h : n ≤ m) :
    Except ParseError (Expr × { l : List String // l.length ≤ n }) →
    Except ParseError (Expr × { l : List String // l.length ≤ m })
  | .error e => .error e
  | .ok (x, ⟨l, hl⟩) => .ok (x, ⟨l, Nat.le_trans hl h⟩)

mutual

/-- `parseImplication`: `orExpr ( '->' implication )?` (right-associative).
The `peek() === tok`/`consume(tok)` pattern of the JavaScript is modelled by
a `head?` test and `tail`. -/
def parseImplicationCore (toks : List String) : PRes toks :=
  match parseOrCore toks with
  | .error e => .error e
  | .ok (left, ⟨rest, hle⟩) =>
    if h : rest.head? = some "->" then
      match parseImplicationCore rest.tail with
      | .error e => .error e
      | .ok (right, ⟨rest3, hle3⟩) =>
        .ok (Expr.imp left right, ⟨rest3, by
          have hne : rest ≠ [] := by intro hc; subst hc; simp at h
          have := List.length_tail rest
          have : 1 ≤ rest.length := Nat.one_le_iff_ne_zero.mpr
            (fun hc => hne (List.length_eq_zero.mp hc))
          omega⟩)
    else .ok (left, ⟨rest, hle⟩)
termination_by toks.length * 8 + 7
decreasing_by all_goals
  (first
    | omega
    | (have hne : rest ≠ [] := by intro hc; subst hc; simp at h
       have h1 : rest.tail.length = rest.length - 1 := List.length_tail rest
       have h2 : 1 ≤ rest.length := Nat.one_le_iff_ne_zero.mpr
         (fun hc => hne (List.length_eq_zero.mp hc))
       omega))

/-- `parseOr`: `andExpr ( '|' andExpr )*` (left-associative). -/
def parseOrCore (toks : List String) : PRes toks :=
  match parseAndCore toks with
  | .error e => .error e
  | .ok (node, ⟨rest, hle⟩) => weakenP hle (orLoopCore node rest)
termination_by toks.length * 8 + 6
decreasing_by all_goals omega

/-- The `while (peek() === '|')` loop of `parseOr`. -/
def orLoopCore (node : Expr) (toks : List String) : PRes toks :=
  if h : toks.head? = some "|" then
    match parseAndCore toks.tail with
    | .error e => .error e
    | .ok (right, ⟨rest2, hle2⟩) =>
      weakenP (by
        have hne : toks ≠ [] := by intro hc; subst hc; simp at h
        have h1 : toks.tail.length = toks.length - 1 := List.length_tail toks
        omega) (orLoopCore (Expr.or node right) rest2)
  else .ok (node, ⟨toks, Nat.le_refl _⟩)
termination_by toks.length * 8 + 5
decreasing_by all_goals
  (have hne : toks ≠ [] := by intro hc; subst hc; simp at h
   have h1 : toks.tail.length = toks.length - 1 := List.length_tail toks
   have h2 : 1 ≤ toks.length := Nat.one_le_iff_ne_zero.mpr
     (fun hc => hne (List.length_eq_zero.mp hc))
   omega)

/-- `parseAnd`: `notExpr ( '&' notExpr )*` (left-associative). -/
def parseAndCore (toks : List String) : PRes toks :=
  match parseNotCore toks with
  | .error e => .error e
  | .ok (node, ⟨rest, hle⟩) => weakenP hle (andLoopCore node rest)
termination_by toks.length * 8 + 4
decreasing_by all_goals omega

/-- The `while (peek() === '&')` loop of `parseAnd`. -/
def andLoopCore (node : Expr) (toks : List String) : PRes toks :=
  if h : toks.head? = some "&" then
    match parseNotCore toks.tail with
    | .error e => .error e
    | .ok (right, ⟨rest2, hle2⟩) =>
      weakenP (by
        have hne : toks ≠ [] := by intro hc; subst hc; simp at h
        have h1 : toks.tail.length = toks.length - 1 := List.length_tail toks
        omega) (andLoopCore (Expr.and node right) rest2)
  else .ok (node, ⟨toks, Nat.le_refl _⟩)
termination_by toks.length * 8 + 3
decreasing_by all_goals
  (have hne : toks ≠ [] := by intro hc; subst hc; simp at h
   have h1 : toks.tail.length = toks.length - 1 := List.length_tail toks
   have h2 : 1 ≤ toks.length := Nat.one_le_iff_ne_zero.mpr
     (fun hc => hne (List.length_eq_zero.mp hc))
   omega)

/-- `parseNot`: `'~' notExpr | primary`. -/
def parseNotCore (toks : List String) : PRes toks :=
  if h : toks.head? = some "~" then
    match parseNotCore toks.tail with
    | .error e => .error e
    | .ok (e, ⟨rest2, hle2⟩) =>
      .ok (Expr.not e, ⟨rest2, by
        have hne : toks ≠ [] := by intro hc; subst hc; simp at h
        have h1 : toks.tail.length = toks.length - 1 := List.length_tail toks
        omega⟩)
  else parsePrimaryCore toks
termination_by toks.length * 8 + 2
decreasing_by all_goals
  (first
    | omega
    | (have hne : toks ≠ [] := by intro hc; subst hc; simp at h
       have h1 : toks.tail.length = toks.length - 1 := List.length_tail toks
       have h2 : 1 ≤ toks.length := Nat.one_le_iff_ne_zero.mpr
         (fun hc => hne (List.length_eq_zero.mp hc))
       omega))

/-- `parsePrimary`: `VAR | '(' implication ')'`.  Any token other than `(`
is accepted as a variable name; end of tokens and a missing `)` raise the
corresponding errors. -/
def parsePrimaryCore (toks : List String) : PRes toks :=
  match toks with
  | [] => .error ParseError.unexpectedEnd
  | t :: rest =>
    if t = "(" then
      match parseImplicationCore rest with
      | .error e => .error e
      | .ok (e, ⟨rest2, hle2⟩) =>
        if rest2.head? = some ")" then
          .ok (e, ⟨rest2.tail, by
            have h1 : rest2.tail.length = rest2.length - 1 := List.length_tail rest2
            simp only [List.length_cons]
            omega⟩)
        else .error ParseError.missingClose
    else .ok (Expr.var t, ⟨rest, by simp only [List.length_cons]; omega⟩)
termination_by toks.length * 8 + 1
decreasing_by all_goals (simp only [List.length_cons]; omega)

end

/-- `parseImplication` with the termination bookkeeping erased. -/
def parseImplication (toks : List String) : Except ParseError (Expr × List String) :=
  (parseImplicationCore toks).map (fun p => (p.1, p.2.1))

/-- `parsePrimary` with the termination bookkeeping erased. -/
def parsePrimary (toks : List String) : Except ParseError (Expr × List String) :=
  (parsePrimaryCore toks).map (fun p => (p.1, p.2.1))

/-- `parseFromString(str)`: tokenize, parse an implication, and reject
leftover tokens with `Unexpected token`. -/
def parseFromString (str : String) : Except ParseError Expr :=
  let tokens := tokenize str
  match parseImplicationCore tokens with
  | .error e => .error e
  | .ok (root, ⟨[], _⟩) => .ok root
  | .ok (_, ⟨t :: _, _⟩) => .error (ParseError.unexpectedToken t)

/-- `exprToStr(e)`: the canonical fully-parenthesized rendering. -/
def exprToStr : Expr → String
  | .var n => n
  | .not inner =>
    match inner with
    | .var _ => "~" ++ exprToStr inner
    | _ => "~(" ++ exprToStr inner ++ ")"
  | .and l r => "(" ++ exprToStr l ++ " & " ++ exprToStr r ++ ")"
  | .or l r => "(" ++ exprToStr l ++ " | " ++ exprToStr r ++ ")"
  | .imp l r => "(" ++ exprToStr l ++ " -> " ++ exprToStr r ++ ")"

/-- A JavaScript assignment object: keys with boolean values; a missing key
reads as `undefined`, which `Boolean` coerces to `false`. -/
abbrev Assignment := List (String × Bool)

/-- `evalExpr(e, assignment)`. -/
def evalExpr : Expr → Assignment → Bool
  | .var n, a => ((a.lookup n).getD false)
  | .not e, a => !(evalExpr e a)
  | .and l r, a => evalExpr l a && evalExpr r a
  | .or l r, a => evalExpr l a || evalExpr r a
  | .imp l r, a => !(evalExpr l a) || evalExpr r a

/-- One entry of the engine's fact map:
`{ expr, reason, derivedFrom, stepOrder }`, keyed by `exprToStr(expr)`.
Keeping the key with the entry models `map` plus `order` (insertion order). -/
structure FactEntry where
  key : String
  expr : Expr
  reason : String
  derivedFrom : List String
  stepOrder : Nat
deriving DecidableEq, Repr

/-- The engine state: entries in insertion order (`map` + `order`). -/
abbrev Facts := List FactEntry

/-- `map.has(s)`. -/
def hasKey (facts : Facts) (s : String) : Bool :=
  facts.any (fun f => f.key == s)

/-- `map.get(s)` (the key set is duplicate-free by construction). -/
def getFact (facts : Facts) (s : String) : Option FactEntry :=
  facts.find? (fun f => f.key == s)

/-- `addExpr(expr, reason, derivedFrom)` inside `forwardChain`: dedup by
canonical string, record the entry, and `throw { found: true }` the instant
the goal string is added.  The throw is modelled by `Except.error` carrying
the facts at the moment of the throw. -/
def addExpr (goalStr : String) (facts : Facts) (expr : Expr) (reason : String)
    (derivedFrom : List String) : Except Facts (Facts × Bool) :=
  let s := exprToStr expr
  if hasKey facts s then .ok (facts, false)
  else
    let facts' := facts ++ [⟨s, expr, reason, derivedFrom, facts.length + 1⟩]
    if s = goalStr then .error facts' else .ok (facts', true)

/-- `if (addExpr(...)) changed = true;` — run `addExpr` and accumulate the
per-pass `changed` flag. -/
def addTrack (goalStr : String) (st : Facts × Bool) (expr : Expr) (reason : String)
    (derivedFrom : List String) : Except Facts (Facts × Bool) :=
  match addExpr goalStr st.1 expr reason derivedFrom with
  | .error ff => .error ff
  | .ok (f2, added) => .ok (f2, st.2 || added)

/-- Simplification: if the fact `s` is `And(a, b)`, add both conjuncts. -/
def simplificationStep (goalStr : String) (s : String) (e : Expr) (st : Facts × Bool) :
    Except Facts (Facts × Bool) :=
  match e with
  | .and a b =>
    match addTrack goalStr st a ("Simplification from " ++ s) [s] with
    | .error ff => .error ff
    | .ok st1 => addTrack goalStr st1 b ("Simplification from " ++ s) [s]
  | _ => .ok st

/-- The `e.type === 'imp'` block of the inner loop: Modus Ponens, Modus
Tollens, then Hypothetical Syllogism against the snapshot fact `t`/`f`. -/
def impRules (goalStr : String) (s t : String) (e f : Expr) (st : Facts × Bool) :
    Except Facts (Facts × Bool) :=
  match e with
  | .imp l r =>
    let leftStr := exprToStr l
    let step1 : Except Facts (Facts × Bool) :=
      if hasKey st.1 leftStr then
        addTrack goalStr st r ("Modus Ponens from " ++ s ++ " and " ++ leftStr) [s, leftStr]
      else .ok st
    match step1 with
    | .error ff => .error ff
    | .ok st1 =>
      let negRightStr := exprToStr (Expr.not r)
      let step2 : Except Facts (Facts × Bool) :=
        if hasKey st1.1 negRightStr then
          addTrack goalStr st1 (Expr.not l)
            ("Modus Tollens from " ++ s ++ " and " ++ negRightStr) [s, negRightStr]
        else .ok st1
      match step2 with
      | .error ff => .error ff
      | .ok st2 =>
        match f with
        | .imp l2 r2 =>
          if r = l2 then
            addTrack goalStr st2 (Expr.imp l r2)
              ("Hypothetical Syllogism from " ++ s ++ " and " ++ t) [s, t]
          else .ok st2
        | _ => .ok st2
  | _ => .ok st

/-- The `e.type === 'or'` block of the inner loop: Disjunctive Syllogism. -/
def dsRules (goalStr : String) (s : String) (e : Expr) (st : Facts × Bool) :
    Except Facts (Facts × Bool) :=
  match e with
  | .or a b =>
    let notA := exprToStr (Expr.not a)
    let notB := exprToStr (Expr.not b)
    let step1 : Except Facts (Facts × Bool) :=
      if hasKey st.1 notA then
        addTrack goalStr st b ("Disjunctive Syllogism from " ++ s ++ " and " ++ notA) [s, notA]
      else .ok st
    match step1 with
    | .error ff => .error ff
    | .ok st1 =>
      if hasKey st1.1 notB then
        addTrack goalStr st1 a ("Disjunctive Syllogism from " ++ s ++ " and " ++ notB) [s, notB]
      else .ok st1
  | _ => .ok st

/-- Conjunction Introduction, attempted only when the overall goal is a
conjunction: the added fact is always `And(e, f)` in snapshot pair order. -/
def conjIntroStep (goalExpr : Expr) (goalStr : String) (e f : Expr) (st : Facts × Bool) :
    Except Facts (Facts × Bool) :=
  match goalExpr with
  | .and goalL goalR =>
    let aStr := exprToStr e
    let bStr := exprToStr f
    if aStr ≠ bStr ∧ hasKey st.1 aStr ∧ hasKey st.1 bStr then
      if (aStr = exprToStr goalL ∧ bStr = exprToStr goalR) ∨
         (bStr = exprToStr goalL ∧ aStr = exprToStr goalR) then
        addTrack goalStr st (Expr.and e f)
          ("Conjunction Introduction from " ++ aStr ++ " and " ++ bStr) [aStr, bStr]
      else .ok st
    else .ok st
  | _ => .ok st

/-- The inner `for (const t of keys)` loop for a fixed outer fact `s`/`e`. -/
def innerLoop (goalExpr : Expr) (goalStr s : String) (e : Expr) (pending : List String)
    (st : Facts × Bool) : Except Facts (Facts × Bool) :=
  match pending with
  | [] => .ok st
  | t :: ts =>
    if s = t then innerLoop goalExpr goalStr s e ts st
    else
      match getFact st.1 t with
      | none => innerLoop goalExpr goalStr s e ts st
      | some tf =>
        match impRules goalStr s t e tf.expr st with
        | .error ff => .error ff
        | .ok st1 =>
          match dsRules goalStr s e st1 with
          | .error ff => .error ff
          | .ok st2 =>
            match conjIntroStep goalExpr goalStr e tf.expr st2 with
            | .error ff => .error ff
            | .ok st3 => innerLoop goalExpr goalStr s e ts st3

/-- The outer `for (const s of keys)` loop of one pass; `keys` is the
snapshot taken at pass start. -/
def outerLoop (goalExpr : Expr) (goalStr : String) (keys pending : List String)
    (st : Facts × Bool) : Except Facts (Facts × Bool) :=
  match pending with
  | [] => .ok st
  | s :: ss =>
    match getFact st.1 s with
    | none => outerLoop goalExpr goalStr keys ss st
    | some sf =>
      match simplificationStep goalStr s sf.expr st with
      | .error ff => .error ff
      | .ok st1 =>
        match innerLoop goalExpr goalStr s sf.expr keys st1 with
        | .error ff => .error ff
        | .ok st2 => outerLoop goalExpr goalStr keys ss st2

/-- One full pass of the `while` loop: snapshot the keys, reset `changed`,
iterate. -/
def runPass (goalExpr : Expr) (goalStr : String) (facts : Facts) :
    Except Facts (Facts × Bool) :=
  let keys := facts.map (fun f => f.key)
  outerLoop goalExpr goalStr keys keys (facts, false)

/-- The `while (changed && safety < 5000)` loop, returning the state,
safety counter and `changed` flag at loop exit. -/
def chainLoop (goalExpr : Expr) (goalStr : String) (facts : Facts) (safety : Nat)
    (changed : Bool) : Except Facts (Facts × Nat × Bool) :=
  if _h : changed = true ∧ safety < 5000 then
    match runPass goalExpr goalStr facts with
    | .error ff => .error ff
    | .ok (f2, changed2) => chainLoop goalExpr goalStr f2 (safety + 1) changed2
  else .ok (facts, safety, changed)
termination_by 5000 - safety
decreasing_by omega

/-- The engine's result `{ map, order, goalFound }`. -/
structure ProofRun where
  facts : Facts
  goalFound : Bool
deriving DecidableEq, Repr

/-- The ordered key list of a run (`order`). -/
def ProofRun.keys (run : ProofRun) : List String :=
  run.facts.map (fun f => f.key)

/-- Premise initialization: `premiseExprs.forEach((ex, idx) => addExpr(ex,
`Premise idx+1`))`.  Note this runs before the `try` block. -/
def initPremises (goalStr : String) (facts : Facts) (idx : Nat) :
    List Expr → Except Facts Facts
  | [] => .ok facts
  | e :: es =>
    match addExpr goalStr facts e ("Premise " ++ toString (idx + 1)) [] with
    | .error ff => .error ff
    | .ok (f2, _) => initPremises goalStr f2 (idx + 1) es

/-- Assumption initialization, also before the `try` block. -/
def initAssumptions (goalStr : String) (facts : Facts) :
    List Expr → Except Facts Facts
  | [] => .ok facts
  | e :: es =>
    match addExpr goalStr facts e "Assumption" [] with
    | .error ff => .error ff
    | .ok (f2, _) => initAssumptions goalStr f2 es

/-- `forwardChain(premiseExprs, goalExpr, extraAssumptions)`.  The `try`
block only wraps the pass loop, so a `{ found: true }` thrown while the
premises or assumptions are being added escapes `forwardChain` uncaught —
modelled as `Except.error ()`.  A throw from inside the loop is caught and
converted to a successful `ProofRun` with `goalFound: true`. -/
def forwardChain (premiseExprs : List Expr) (goalExpr : Expr)
    (extraAssumptions : List Expr) : Except Unit ProofRun :=
  let goalStr := exprToStr goalExpr
  match initPremises goalStr [] 0 premiseExprs with
  | .error _ => .error ()
  | .ok f1 =>
    match initAssumptions goalStr f1 extraAssumptions with
    | .error _ => .error ()
    | .ok f2 =>
      match chainLoop goalExpr goalStr f2 0 true with
      | .error ff => .ok ⟨ff, true⟩
      | .ok (ff, _, _) => .ok ⟨ff, hasKey ff goalStr⟩

/-- The numbered step lines of `buildStepsHtmlFromMap`. -/
def numberLines (facts : Facts) (idx : Nat) : List String :=
  match facts with
  | [] => []
  | f :: fs => (toString idx ++ ". " ++ f.key ++ "    — " ++ f.reason) :: numberLines fs (idx + 1)

/-- `buildStepsHtmlFromMap(run, title, isAssumptionRun, assumptionStr,
derivedStr)`. -/
def buildStepsHtmlFromMap (run : ProofRun) (title : String) (isAssumptionRun : Bool)
    (assumptionStr derivedStr : String) : String :=
  let lines := numberLines run.facts 1
  let lines :=
    if isAssumptionRun then
      lines ++ [toString (run.facts.length + 1) ++ ". " ++ assumptionStr ++ " -> " ++
        derivedStr ++ "    — →-Introduction (discharge assumption)"]
    else lines
  "<h3 class=\"font-semibold mb-2\">" ++ title ++
    "</h3><pre class=\"bg-gray-50 p-2 rounded text-sm\">" ++
    String.intercalate "\n" lines ++ "</pre>"

/-- The orchestrator's result `{ derived, html }` (`html: null` on failure). -/
structure DeductionResult where
  derived : Bool
  html : Option String
deriving DecidableEq, Repr

/-- `attemptDeductionWithProof(premises, goalExpr)`: direct derivation
first, then one level of →-introduction.  An exception escaping
`forwardChain` propagates (`Except.error ()`). -/
def attemptDeductionWithProof (premises : List Expr) (goalExpr : Expr) :
    Except Unit DeductionResult :=
  match forwardChain premises goalExpr [] with
  | .error e => .error e
  | .ok run =>
    if run.goalFound then
      .ok ⟨true, some (buildStepsHtmlFromMap run "Proof (direct derivation)" false "" "")⟩
    else
      match goalExpr with
      | .imp a b =>
        match forwardChain premises b [a] with
        | .error e => .error e
        | .ok run2 =>
          if run2.goalFound then
            .ok ⟨true, some (buildStepsHtmlFromMap run2 "Proof (→-intro)" true
              (exprToStr a) (exprToStr b))⟩
          else .ok ⟨false, none⟩
      | _ => .ok ⟨false, none⟩

/-- `collectVars` from `solve`: insertion-ordered set of variable names. -/
def collectVars (e : Expr) (vars : List String) : List String :=
  match e with
  | .var n => if n ∈ vars then vars else vars ++ [n]
  | .not e1 => collectVars e1 vars
  | .and l r => collectVars r (collectVars l vars)
  | .or l r => collectVars r (collectVars l vars)
  | .imp l r => collectVars r (collectVars l vars)

/-- `varList`: variables of all premises (in order) then the conclusion. -/
def varListOf (premiseExprs : List Expr) (conclusionExpr : Expr) : List String :=
  collectVars conclusionExpr (premiseExprs.foldl (fun acc p => collectVars p acc) [])

/-- JavaScript `1 << k`: a 32-bit shift.  The shift count is taken modulo
32 and the result is a signed 32-bit integer, so `1 << 31` is negative and
`1 << 32` is `1` again. -/
def jsShiftLeft1 (k : Nat) : Int :=
  if k % 32 = 31 then -(2 ^ 31) else ((2 ^ (k % 32) : Nat) : Int)

/-- The number of iterations of `for (let mask = 0; mask < total; mask++)`
with `total = 1 << k`: none when `total` is negative (`k % 32 = 31`),
`2 ^ (k % 32)` otherwise. -/
def totalRows (k : Nat) : Nat :=
  (jsShiftLeft1 k).toNat

/-- Row `mask` of the truth table: `assignment[v_i] = Boolean(mask & (1 << i))`.
Both `&` operands are converted to 32-bit integers, so the test reads bit
`i % 32` of `mask mod 2^32` (in the program `mask` is always below `2^31`,
where the wrap is the identity). -/
def assignmentOfMask (varList : List String) (mask : Nat) : Assignment :=
  varList.enum.map (fun p => (p.2, Nat.testBit (mask % 2 ^ 32) (p.1 % 32)))

/-- `premisesTrue` for row `mask` (line 335 of `script.js`). -/
def premisesTrueAt (premiseExprs : List Expr) (varList : List String) (mask : Nat) : Bool :=
  premiseExprs.all (fun p => evalExpr p (assignmentOfMask varList mask))

/-- `conclusionTrue` for row `mask` (line 336 of `script.js`). -/
def conclusionTrueAt (conclusionExpr : Expr) (varList : List String) (mask : Nat) : Bool :=
  evalExpr conclusionExpr (assignmentOfMask varList mask)

/-- The `(consistent, valid)` pair after the truth-table loop, which runs
`mask` from `0` while `mask < total` with `total = 1 << varList.length`
(a 32-bit shift, see `totalRows`). -/
def truthTableState (premiseExprs : List Expr) (conclusionExpr : Expr)
    (varList : List String) : Bool × Bool :=
  (List.range (totalRows varList.length)).foldl
    (fun cv mask =>
      let premisesTrue := premisesTrueAt premiseExprs varList mask
      let conclusionTrue := conclusionTrueAt conclusionExpr varList mask
      (cv.1 || premisesTrue, if premisesTrue && !conclusionTrue then false else cv.2))
    (false, true)

/-- The three-way verdict rendered at the end of `solve`. -/
inductive Verdict where
  | inconsistent
  | valid
  | invalid
deriving DecidableEq, Repr

/-- The verdict branch of `solve` (lines 369-379). -/
def solveVerdict (premiseExprs : List Expr) (conclusionExpr : Expr) : Verdict :=
  let varList := varListOf premiseExprs conclusionExpr
  let cv := truthTableState premiseExprs conclusionExpr varList
  if !cv.1 then .inconsistent
  else if cv.2 then .valid
  else .invalid

/-- All variable occurrences of a tree, in traversal order (for stating the
first-appearance property of `collectVars`). -/
def occVars : Expr → List String
  | .var n => [n]
  | .not e => occVars e
  | .and l r => occVars l ++ occVars r
  | .or l r => occVars l ++ occVars r
  | .imp l r => occVars l ++ occVars r

/-- First-appearance deduplication of a list, per the spec's wording
"distinct variables ... in first-appearance order, deduplicated". -/
def firstDedup (l : List String) : List String :=
  l.foldl (fun acc v => if v ∈ acc then acc else acc ++ [v]) []

/-- `n` premises that are single distinct variables `x0, x1, ...` —
trivially satisfiable by the all-true assignment (used to exercise the
truth-table checker at a given distinct-variable count). -/
def varPremises (n : Nat) : List Expr :=
  (List.range n).map (fun i => Expr.var ("x" ++ toString i))

/-- The all-true assignment over the same `n` variables. -/
def allTrueAssignment (n : Nat) : Assignment :=
  (List.range n).map (fun i => ("x" ++ toString i, true))

/-- The canonical token sequence of a tree: what `tokenize` produces on
`exprToStr e`. -/
def toks : Expr → List String
  | .var n => [n]
  | .not (.var n) => ["~", n]
  | .not u => "~" :: "(" :: toks u ++ [")"]
  | .and l r => "(" :: toks l ++ "&" :: toks r ++ [")"]
  | .or l r => "(" :: toks l ++ "|" :: toks r ++ [")"]
  | .imp l r => "(" :: toks l ++ "->" :: toks r ++ [")"]

/-- A name that `tokenize` keeps as a single token. -/
def tokenAtomic (n : String) : Bool :=
  tokenize n == [n]

/-- Names for which the parser round-trips: single-token, and not one of the
two tokens (`(`, `~`) that `parsePrimary`/`parseNot` treat specially. -/
def wfName (n : String) : Bool :=
  tokenAtomic n && !(n == "(") && !(n == "~")

/-- Trees whose variable names all satisfy `wfName`. -/
def wfExpr : Expr → Bool
  | .var n => wfName n
  | .not e => wfExpr e
  | .and l r => wfExpr l && wfExpr r
  | .or l r => wfExpr l && wfExpr r
  | .imp l r => wfExpr l && wfExpr r

/-- A character allowed in a variable name by the data model:
non-whitespace and not an operator/parenthesis character. -/
def isNameChar (c : Char) : Bool :=
  !c.isWhitespace && !isSpecialChar c

/-- No `->` digraph occurs in the character list. -/
def noImpDigraph : List Char → Bool
  | [] => true
  | '-' :: '>' :: _ => false
  | _ :: rest => noImpDigraph rest

/-- The data model's variable-name contract: a nonempty token made of
non-whitespace, non-operator, non-parenthesis characters (and containing no
`->` digraph, which the tokenizer would split). -/
def validNameSpec (n : String) : Bool :=
  !n.isEmpty && n.data.all isNameChar && noImpDigraph n.data

/-- Trees conforming to the data model's `Var` name contract. -/
def wfExprSpec : Expr → Bool
  | .var n => validNameSpec n
  | .not e => wfExprSpec e
  | .and l r => wfExprSpec l && wfExprSpec r
  | .or l r => wfExprSpec l && wfExprSpec r
  | .imp l r => wfExprSpec l && wfExprSpec r

/-- `parseOr` with the termination bookkeeping erased. -/
def parseOr (toks : List String) : Except ParseError (Expr × List String) :=
  (parseOrCore toks).map (fun p => (p.1, p.2.1))

/-- The `|` loop with the termination bookkeeping erased. -/
def orLoop (node : Expr) (toks : List String) : Except ParseError (Expr × List String) :=
  (orLoopCore node toks).map (fun p => (p.1, p.2.1))

/-- `parseAnd` with the termination bookkeeping erased. -/
def parseAnd (toks : List String) : Except ParseError (Expr × List String) :=
  (parseAndCore toks).map (fun p => (p.1, p.2.1))

/-- The `&` loop with the termination bookkeeping erased. -/
def andLoop (node : Expr) (toks : List String) : Except ParseError (Expr × List String) :=
  (andLoopCore node toks).map (fun p => (p.1, p.2.1))

/-- `parseNot` with the termination bookkeeping erased. -/
def parseNot (toks : List String) : Except ParseError (Expr × List String) :=
  (parseNotCore toks).map (fun p => (p.1, p.2.1))

/-! ## Theorems -/

/-- C2: the evaluator computes the standard boolean semantics: a `Var`
returns the assignment's value and `false` when absent; `Not` negates;
`And`/`Or` are boolean conjunction and disjunction; `Implies(l, r)` equals
`not(l) or r`, false exactly when `l` is true and `r` is false. -/
theorem c2_evalExpr_semantics (a : Assignment) :
    (∀ n, evalExpr (Expr.var n) a = (a.lookup n).getD false) ∧
    (∀ n, a.lookup n = none → evalExpr (Expr.var n) a = false) ∧
    (∀ e, evalExpr (Expr.not e) a = !evalExpr e a) ∧
    (∀ l r, evalExpr (Expr.and l r) a = (evalExpr l a && evalExpr r a)) ∧
    (∀ l r, evalExpr (Expr.or l r) a = (evalExpr l a || evalExpr r a)) ∧
    (∀ l r, evalExpr (Expr.imp l r) a = (!evalExpr l a || evalExpr r a)) ∧
    (∀ l r, evalExpr (Expr.imp l r) a = false ↔
      evalExpr l a = true ∧ evalExpr r a = false) := by
  refine ⟨fun n => rfl, fun n h => by simp [evalExpr, h], fun e => rfl,
    fun l r => rfl, fun l r => rfl, fun l r => rfl, fun l r => ?_⟩
  simp only [evalExpr]
  cases evalExpr l a <;> cases evalExpr r a <;> simp

/-- Witness for C2 at a concrete input: the name `Q` is absent from the
assignment `[("P", true)]`, so `Var "Q"` evaluates to `false`. -/
theorem c2_evalExpr_semantics_witness :
    evalExpr (Expr.var "Q") [("P", true)] = false :=
  (c2_evalExpr_semantics [("P", true)]).2.1 "Q" rfl

/-- C3: the four-level precedence grammar: `~` binds tightest, then `&`,
then `|` (both left-associative), then `->` loosest and right-associative.
`"~P & Q | R -> S"` parses to `Implies(Or(And(Not P, Q), R), S)` and
`"A -> B -> C"` to `Implies(A, Implies(B, C))`. -/
theorem c3_parser_precedence :
    parseFromString "~P & Q | R -> S" =
      Except.ok (Expr.imp (Expr.or (Expr.and (Expr.not (Expr.var "P")) (Expr.var "Q"))
        (Expr.var "R")) (Expr.var "S")) ∧
    parseFromString "A -> B -> C" =
      Except.ok (Expr.imp (Expr.var "A") (Expr.imp (Expr.var "B") (Expr.var "C"))) ∧
    parseFromString "A & B & C" =
      Except.ok (Expr.and (Expr.and (Expr.var "A") (Expr.var "B")) (Expr.var "C")) ∧
    parseFromString "A | B | C" =
      Except.ok (Expr.or (Expr.or (Expr.var "A") (Expr.var "B")) (Expr.var "C")) := by
  refine ⟨?_, ?_, ?_, ?_⟩ <;>
    simp [parseFromString, parseImplicationCore, parseOrCore, orLoopCore, parseAndCore,
      andLoopCore, parseNotCore, parsePrimaryCore, tokenize, wordsAux, preprocess,
      weakenP, isSpecialChar]

/-- C4 (code bug): the premise/assumption initialization of `forwardChain`
runs outside the `try` block, so when the goal's canonical string is added
during initialization the internal `{ found: true }` throw escapes to the
caller instead of returning a success result (here: goal `P` among the
premises).  When the goal is produced during rule application the throw is
caught and the engine returns success normally (second conjunct). -/
theorem c4_forwardChain_init_throw_escapes :
    forwardChain [Expr.var "P"] (Expr.var "P") [] = Except.error () ∧
    (forwardChain [Expr.imp (Expr.var "P") (Expr.var "Q"), Expr.var "P"]
        (Expr.var "Q") []).map (fun r => (r.keys, r.goalFound)) =
      Except.ok (["(P -> Q)", "P", "Q"], true) := by
  constructor
  · simp [forwardChain, initPremises, initAssumptions, addExpr, hasKey, exprToStr]
  · simp [forwardChain, initPremises, initAssumptions, addExpr, hasKey, exprToStr,
      chainLoop, runPass, outerLoop, innerLoop, getFact, simplificationStep, impRules,
      dsRules, conjIntroStep, addTrack, ProofRun.keys, Except.map]

/-- C5 (code bug): for the goal `P -> P` with empty premises the
conditional-proof run adds the assumption `P`, which equals the subgoal, so
the `{ found: true }` throw happens during initialization (outside the
`try`) and escapes `attemptDeductionWithProof` — no conditional proof is
produced.  The →-introduction mechanism itself works when the subgoal is
derived during rule application (second conjunct: contrapositive goal
`~Q -> ~P` from premise `P -> Q` yields a discharged conditional proof). -/
theorem c5_conditional_proof_crash :
    attemptDeductionWithProof [] (Expr.imp (Expr.var "P") (Expr.var "P")) =
      Except.error () ∧
    (attemptDeductionWithProof [Expr.imp (Expr.var "P") (Expr.var "Q")]
        (Expr.imp (Expr.not (Expr.var "Q")) (Expr.not (Expr.var "P")))).map
      (fun d => d.derived) = Except.ok true := by
  constructor
  · simp [attemptDeductionWithProof, forwardChain, initPremises, initAssumptions,
      addExpr, hasKey, exprToStr, chainLoop, runPass, outerLoop, innerLoop, getFact,
      simplificationStep, impRules, dsRules, conjIntroStep, addTrack]
  · simp [attemptDeductionWithProof, forwardChain, initPremises, initAssumptions,
      addExpr, hasKey, exprToStr, chainLoop, runPass, outerLoop, innerLoop, getFact,
      simplificationStep, impRules, dsRules, conjIntroStep, addTrack, Except.map]

/-- C8 counterexample: with premises `B, A` (in that snapshot order) and
goal `And(A, B)`, the first matching ordered pair is `(F, G) = (B, A)` —
the swapped order — and Conjunction Introduction adds `And(B, A)` with
canonical string `"(B & A)"`, which is **not** the goal's canonical string
`"(A & B)"`; the claim that the added fact is always rendered to match the
goal's operand order is false. -/
theorem c8_counterexample :
    (forwardChain [Expr.var "B", Expr.var "A"]
        (Expr.and (Expr.var "A") (Expr.var "B")) []).map
      (fun r => r.facts.map (fun f => (f.key, f.reason))) =
      Except.ok [("B", "Premise 1"), ("A", "Premise 2"),
        ("(B & A)", "Conjunction Introduction from B and A"),
        ("(A & B)", "Conjunction Introduction from A and B")] ∧
    ("(B & A)" : String) ≠ exprToStr (Expr.and (Expr.var "A") (Expr.var "B")) := by
  constructor
  · simp [forwardChain, initPremises, initAssumptions, addExpr, hasKey, exprToStr,
      chainLoop, runPass, outerLoop, innerLoop, getFact, simplificationStep, impRules,
      dsRules, conjIntroStep, addTrack, Except.map]
    exact ⟨rfl, rfl⟩
  · decide

/-- The truth-table loop state is `(consistent, valid)`: `consistent` is the
`||` of `premisesTrue` over the rows seen, `valid` the `&&` of
"not (premises hold and conclusion fails)". -/
theorem ttFoldStep (pt ct : Nat → Bool) (l : List Nat) (c v : Bool) :
    l.foldl (fun cv m => (cv.1 || pt m, if pt m && !ct m then false else cv.2)) (c, v) =
      (c || l.any pt, v && l.all (fun m => !(pt m && !ct m))) := by
  induction l generalizing c v with
  | nil => simp
  | cons m ms ih =>
    simp only [List.foldl_cons, List.any_cons, List.all_cons, ih]
    cases hpt : pt m <;> cases hct : ct m <;> cases c <;> cases v <;> simp

/-- Closed form of `truthTableState`. -/
theorem truthTableState_eq (premiseExprs : List Expr) (conclusionExpr : Expr)
    (varList : List String) :
    truthTableState premiseExprs conclusionExpr varList =
      ((List.range (totalRows varList.length)).any (premisesTrueAt premiseExprs varList),
       (List.range (totalRows varList.length)).all
         (fun m => !(premisesTrueAt premiseExprs varList m &&
           !conclusionTrueAt conclusionExpr varList m))) := by
  simp only [truthTableState]
  rw [ttFoldStep]
  simp

/-- Below 31 distinct variables the 32-bit shift `1 << k` is exact, so the
loop runs `2 ^ k` times. -/
theorem totalRows_of_le (k : Nat) (h : k ≤ 30) : totalRows k = 2 ^ k := by
  have hk : k % 32 = k := Nat.mod_eq_of_lt (by omega)
  simp only [totalRows, jsShiftLeft1, hk]
  rw [if_neg (by omega)]
  exact Int.toNat_natCast _

/-- At exactly 31 distinct variables `1 << 31` is negative, so the loop
body never runs. -/
theorem totalRows_31 : totalRows 31 = 0 := by
  simp [totalRows, jsShiftLeft1]

/-- `collectVars` is first-appearance deduplication folded over the
occurrence list. -/
theorem collectVars_eq_foldl (e : Expr) (acc : List String) :
    collectVars e acc =
      (occVars e).foldl (fun a v => if v ∈ a then a else a ++ [v]) acc := by
  induction e generalizing acc with
  | var n => simp [collectVars, occVars]
  | not e ih => simp [collectVars, occVars, ih]
  | and l r ihl ihr => simp [collectVars, occVars, ihl, ihr, List.foldl_append]
  | or l r ihl ihr => simp [collectVars, occVars, ihl, ihr, List.foldl_append]
  | imp l r ihl ihr => simp [collectVars, occVars, ihl, ihr, List.foldl_append]

/-- The collected variable list is the first-appearance deduplication of
all occurrences: premises in order, then the conclusion. -/
theorem varListOf_eq_firstDedup (premiseExprs : List Expr) (conclusionExpr : Expr) :
    varListOf premiseExprs conclusionExpr =
      firstDedup ((premiseExprs.map occVars).flatten ++ occVars conclusionExpr) := by
  simp only [varListOf, firstDedup]
  rw [List.foldl_append, collectVars_eq_foldl]
  congr 1
  have key : ∀ (ps : List Expr) (acc : List String),
      ps.foldl (fun a p => collectVars p a) acc =
        ((ps.map occVars).flatten).foldl (fun a v => if v ∈ a then a else a ++ [v]) acc := by
    intro ps
    induction ps with
    | nil => intro acc; simp
    | cons p ps ih =>
      intro acc
      simp only [List.foldl_cons, List.map_cons, List.flatten_cons, List.foldl_append]
      rw [collectVars_eq_foldl, ih]
  exact key premiseExprs []

/-- First-appearance deduplication yields a duplicate-free list. -/
theorem firstDedup_foldl_nodup (l : List String) :
    ∀ acc : List String, acc.Nodup →
      (l.foldl (fun a v => if v ∈ a then a else a ++ [v]) acc).Nodup := by
  induction l with
  | nil => intro acc h; simpa using h
  | cons v vs ih =>
    intro acc h
    simp only [List.foldl_cons]
    by_cases hv : v ∈ acc
    · simpa [hv] using ih acc h
    · refine ih _ ?_
      simp only [hv, if_false]
      simp [List.nodup_append, h, hv]

/-- C1 (amended): for premise/conclusion sets with at most 30 distinct
variables — where the 32-bit row count `1 << k` is exact — the truth-table
checker enumerates all `2^k` assignments over the `k` distinct variables
(first-appearance order, deduplicated) and yields `inconsistent` iff no
row satisfies all premises, `valid` iff some row satisfies the premises
and every premise-satisfying row satisfies the conclusion, `invalid` iff
some row satisfies the premises but not the conclusion. -/
theorem c1_truth_table_verdict (premiseExprs : List Expr) (conclusionExpr : Expr)
    (h30 : (varListOf premiseExprs conclusionExpr).length ≤ 30) :
    (solveVerdict premiseExprs conclusionExpr = Verdict.inconsistent ↔
      ∀ m < 2 ^ (varListOf premiseExprs conclusionExpr).length,
        premisesTrueAt premiseExprs (varListOf premiseExprs conclusionExpr) m = false) ∧
    (solveVerdict premiseExprs conclusionExpr = Verdict.valid ↔
      ((∃ m, m < 2 ^ (varListOf premiseExprs conclusionExpr).length ∧
          premisesTrueAt premiseExprs (varListOf premiseExprs conclusionExpr) m = true) ∧
       ∀ m < 2 ^ (varListOf premiseExprs conclusionExpr).length,
         premisesTrueAt premiseExprs (varListOf premiseExprs conclusionExpr) m = true →
           conclusionTrueAt conclusionExpr (varListOf premiseExprs conclusionExpr) m = true)) ∧
    (solveVerdict premiseExprs conclusionExpr = Verdict.invalid ↔
      ∃ m, m < 2 ^ (varListOf premiseExprs conclusionExpr).length ∧
        premisesTrueAt premiseExprs (varListOf premiseExprs conclusionExpr) m = true ∧
        conclusionTrueAt conclusionExpr (varListOf premiseExprs conclusionExpr) m = false) ∧
    (varListOf premiseExprs conclusionExpr).Nodup ∧
    varListOf premiseExprs conclusionExpr =
      firstDedup ((premiseExprs.map occVars).flatten ++ occVars conclusionExpr) := by
  set vl := varListOf premiseExprs conclusionExpr with hvl
  set N := 2 ^ vl.length with hN
  set pt := premisesTrueAt premiseExprs vl with hpt
  set ct := conclusionTrueAt conclusionExpr vl with hct
  have hAq : ((List.range N).any pt = true) ↔ ∃ m, m < N ∧ pt m = true := by
    simp [List.any_eq_true, List.mem_range]
  have hAq' : ((List.range N).any pt = false) ↔ ∀ m < N, pt m = false := by
    rw [← Bool.not_eq_true, hAq]
    push_neg
    constructor
    · intro h m hm
      simpa using h m hm
    · intro h m hm
      simp [h m hm]
  have hBq : ((List.range N).all (fun m => !(pt m && !ct m)) = true) ↔
      ∀ m < N, pt m = true → ct m = true := by
    simp only [List.all_eq_true, List.mem_range]
    constructor
    · intro h m hm hptm
      have := h m hm
      cases hc : ct m
      · rw [hptm, hc] at this; simp at this
      · rfl
    · intro h m hm
      cases hp2 : pt m
      · simp
      · simp [h m hm hp2]
  have hBq' : ((List.range N).all (fun m => !(pt m && !ct m)) = false) ↔
      ∃ m, m < N ∧ pt m = true ∧ ct m = false := by
    rw [← Bool.not_eq_true, hBq]
    push_neg
    constructor
    · rintro ⟨m, hm, hptm, hctm⟩
      exact ⟨m, hm, hptm, by simpa using hctm⟩
    · rintro ⟨m, hm, hptm, hctm⟩
      exact ⟨m, hm, hptm, by simp [hctm]⟩
  have hverdict : solveVerdict premiseExprs conclusionExpr =
      (if !((List.range N).any pt) then Verdict.inconsistent
       else if (List.range N).all (fun m => !(pt m && !ct m)) then Verdict.valid
       else Verdict.invalid) := by
    simp only [solveVerdict, ← hvl, truthTableState_eq, totalRows_of_le vl.length h30,
      ← hN, ← hpt, ← hct]
  have h1 : solveVerdict premiseExprs conclusionExpr = Verdict.inconsistent ↔
      (List.range N).any pt = false := by
    rw [hverdict]
    cases hA : (List.range N).any pt <;>
      cases hB : (List.range N).all (fun m => !(pt m && !ct m)) <;> simp
  have h2 : solveVerdict premiseExprs conclusionExpr = Verdict.valid ↔
      ((List.range N).any pt = true ∧
       (List.range N).all (fun m => !(pt m && !ct m)) = true) := by
    rw [hverdict]
    cases hA : (List.range N).any pt <;>
      cases hB : (List.range N).all (fun m => !(pt m && !ct m)) <;> simp
  have h3 : solveVerdict premiseExprs conclusionExpr = Verdict.invalid ↔
      ((List.range N).any pt = true ∧
       (List.range N).all (fun m => !(pt m && !ct m)) = false) := by
    rw [hverdict]
    cases hA : (List.range N).any pt <;>
      cases hB : (List.range N).all (fun m => !(pt m && !ct m)) <;> simp
  have h3' : solveVerdict premiseExprs conclusionExpr = Verdict.invalid ↔
      ∃ m, m < N ∧ pt m = true ∧ ct m = false := by
    refine h3.trans ⟨fun hx => hBq'.1 hx.2, fun hx => ⟨hAq.2 ?_, hBq'.2 hx⟩⟩
    obtain ⟨m, hm, hptm, -⟩ := hx
    exact ⟨m, hm, hptm⟩
  refine ⟨h1.trans hAq', h2.trans (and_congr hAq hBq), h3', ?_, ?_⟩
  · rw [hvl, varListOf_eq_firstDedup]
    unfold firstDedup
    exact firstDedup_foldl_nodup _ [] List.nodup_nil
  · rw [hvl]
    exact varListOf_eq_firstDedup premiseExprs conclusionExpr

/-- Witness for C1 at a concrete input: premises `P, ~P` (two distinct
variables, within the 30-variable bound) are inconsistent. -/
theorem c1_truth_table_verdict_witness :
    solveVerdict [Expr.var "P", Expr.not (Expr.var "P")] (Expr.var "Q") =
      Verdict.inconsistent :=
  (c1_truth_table_verdict [Expr.var "P", Expr.not (Expr.var "P")] (Expr.var "Q")
    (by decide)).1.mpr (by decide)

/-- C1 counterexample: at 31 distinct variables the JavaScript row count
`1 << 31` is a negative 32-bit integer, so the truth-table loop runs zero
times and the verdict is `inconsistent` — although the 31 single-variable
premises are all satisfied by the all-true assignment (second conjunct),
and the conclusion `x0` is among the premises.  The unrestricted claim is
therefore false on the program. -/
theorem c1_counterexample :
    solveVerdict (varPremises 31) (Expr.var "x0") = Verdict.inconsistent ∧
    (varPremises 31).all (fun p => evalExpr p (allTrueAssignment 31)) = true ∧
    (varListOf (varPremises 31) (Expr.var "x0")).length = 31 := by
  refine ⟨?_, by decide, by decide⟩
  decide

/-- If `addExpr` reports nothing added, the fact list is unchanged. -/
theorem addExpr_ok_false {gs : String} {facts : Facts} {e : Expr} {r : String}
    {df : List String} {f2 : Facts}
    (h : addExpr gs facts e r df = .ok (f2, false)) : f2 = facts := by
  simp only [addExpr] at h
  split at h
  · simp only [Except.ok.injEq, Prod.mk.injEq] at h
    exact h.1.symm
  · split at h
    · exact absurd h (by simp)
    · simp only [Except.ok.injEq, Prod.mk.injEq] at h
      exact absurd h.2 (by simp)

/-- If `addExpr` throws, the goal string has just been added. -/
theorem addExpr_error {gs : String} {facts : Facts} {e : Expr} {r : String}
    {df : List String} {ff : Facts}
    (h : addExpr gs facts e r df = .error ff) : hasKey ff gs = true := by
  simp only [addExpr] at h
  split at h
  · exact absurd h (by simp)
  · split at h
    · rename_i hgoal
      simp only [Except.error.injEq] at h
      subst h
      simp [hasKey, List.any_append, hgoal]
    · exact absurd h (by simp)

/-- If `addTrack` leaves `changed` false, nothing was added and `changed`
was already false. -/
theorem addTrack_ok_false {gs : String} {st : Facts × Bool} {e : Expr} {r : String}
    {df : List String} {f2 : Facts}
    (h : addTrack gs st e r df = .ok (f2, false)) : f2 = st.1 ∧ st.2 = false := by
  simp only [addTrack] at h
  cases hx : addExpr gs st.1 e r df with
  | error ff => rw [hx] at h; exact absurd h (by simp)
  | ok p =>
    obtain ⟨fa, added⟩ := p
    rw [hx] at h
    simp only [Except.ok.injEq, Prod.mk.injEq, Bool.or_eq_false_iff] at h
    obtain ⟨h1, h2, h3⟩ := h
    subst h3
    exact ⟨h1.symm.trans (addExpr_ok_false hx), h2⟩

/-- If `addTrack` throws, the goal string is in the thrown fact list. -/
theorem addTrack_error {gs : String} {st : Facts × Bool} {e : Expr} {r : String}
    {df : List String} {ff : Facts}
    (h : addTrack gs st e r df = .error ff) : hasKey ff gs = true := by
  simp only [addTrack] at h
  cases hx : addExpr gs st.1 e r df with
  | error ff2 =>
    rw [hx] at h
    simp only [Except.error.injEq] at h
    subst h
    exact addExpr_error hx
  | ok p => obtain ⟨fa, added⟩ := p; rw [hx] at h; exact absurd h (by simp)

/-- A conditional `addTrack` (the `if (map.has(...))` pattern): no change
means unchanged state. -/
theorem condAddTrack_ok_false {gs : String} {st : Facts × Bool} {cond : Bool} {e : Expr}
    {r : String} {df : List String} {f2 : Facts}
    (h : (if cond then addTrack gs st e r df else .ok st) = .ok (f2, false)) :
    f2 = st.1 ∧ st.2 = false := by
  split at h
  · exact addTrack_ok_false h
  · obtain ⟨sf, sc⟩ := st
    simp only [Except.ok.injEq, Prod.mk.injEq] at h
    exact ⟨h.1.symm, h.2⟩

/-- A conditional `addTrack` only throws via `addExpr`. -/
theorem condAddTrack_error {gs : String} {st : Facts × Bool} {cond : Bool} {e : Expr}
    {r : String} {df : List String} {ff : Facts}
    (h : (if cond then addTrack gs st e r df else .ok st) = .error ff) :
    hasKey ff gs = true := by
  split at h
  · exact addTrack_error h
  · exact absurd h (by simp)

/-- A conditional `addTrack` that returned `ok` with final `changed` false:
step the invariant backwards. -/
theorem condAddTrack_step {gs : String} {st : Facts × Bool} {cond : Bool} {e : Expr}
    {r : String} {df : List String} {st1 : Facts × Bool}
    (hx : (if cond then addTrack gs st e r df else .ok st) = .ok st1)
    (h : st1.2 = false) : st1.1 = st.1 ∧ st.2 = false := by
  obtain ⟨f1, c1⟩ := st1
  simp only at h
  subst h
  exact condAddTrack_ok_false hx

/-- Same as `condAddTrack_step` for an unconditional `addTrack`. -/
theorem addTrack_step {gs : String} {st : Facts × Bool} {e : Expr}
    {r : String} {df : List String} {st1 : Facts × Bool}
    (hx : addTrack gs st e r df = .ok st1)
    (h : st1.2 = false) : st1.1 = st.1 ∧ st.2 = false := by
  obtain ⟨f1, c1⟩ := st1
  simp only at h
  subst h
  exact addTrack_ok_false hx

/-- `simplificationStep` with unchanged flag leaves the state unchanged. -/
theorem simplificationStep_ok_false {gs s : String} {e : Expr} {st : Facts × Bool} {f2 : Facts}
    (h : simplificationStep gs s e st = .ok (f2, false)) : f2 = st.1 ∧ st.2 = false := by
  cases e with
  | and a b =>
    simp only [simplificationStep] at h
    split at h
    · simp at h
    · rename_i st1 hx1
      obtain ⟨h1, h2⟩ := addTrack_ok_false h
      obtain ⟨h3, h4⟩ := addTrack_step hx1 h2
      exact ⟨h1.trans h3, h4⟩
  | var n => simp only [simplificationStep, Except.ok.injEq] at h; simp [h]
  | not e1 => simp only [simplificationStep, Except.ok.injEq] at h; simp [h]
  | or l r => simp only [simplificationStep, Except.ok.injEq] at h; simp [h]
  | imp l r => simp only [simplificationStep, Except.ok.injEq] at h; simp [h]

/-- `simplificationStep` only throws via `addExpr`. -/
theorem simplificationStep_error {gs s : String} {e : Expr} {st : Facts × Bool} {ff : Facts}
    (h : simplificationStep gs s e st = .error ff) : hasKey ff gs = true := by
  cases e with
  | and a b =>
    simp only [simplificationStep] at h
    split at h
    · rename_i ff2 hx1
      simp only [Except.error.injEq] at h
      subst h
      exact addTrack_error hx1
    · exact addTrack_error h
  | var n => simp only [simplificationStep] at h; exact absurd h (by simp)
  | not e1 => simp only [simplificationStep] at h; exact absurd h (by simp)
  | or l r => simp only [simplificationStep] at h; exact absurd h (by simp)
  | imp l r => simp only [simplificationStep] at h; exact absurd h (by simp)

/-- `impRules` (Modus Ponens, Modus Tollens, Hypothetical Syllogism) with
unchanged flag leaves the state unchanged. -/
theorem impRules_ok_false {gs s t : String} {e f : Expr} {st : Facts × Bool} {f2 : Facts}
    (h : impRules gs s t e f st = .ok (f2, false)) : f2 = st.1 ∧ st.2 = false := by
  cases e with
  | imp l r =>
    simp only [impRules] at h
    split at h
    · simp at h
    · rename_i st1 hx1
      split at h
      · simp at h
      · rename_i st2 hx2
        have hfin : f2 = st2.1 ∧ st2.2 = false := by
          split at h
          · rename_i l2 r2
            split at h
            · obtain ⟨h1, h2⟩ := addTrack_ok_false h
              exact ⟨h1, h2⟩
            · simp only [Except.ok.injEq] at h; simp [h]
          · simp only [Except.ok.injEq] at h; simp [h]
        obtain ⟨h1, h2⟩ := hfin
        obtain ⟨h3, h4⟩ := condAddTrack_step hx2 h2
        obtain ⟨h5, h6⟩ := condAddTrack_step hx1 h4
        exact ⟨h1.trans (h3.trans h5), h6⟩
  | var n => simp only [impRules, Except.ok.injEq] at h; simp [h]
  | not e1 => simp only [impRules, Except.ok.injEq] at h; simp [h]
  | and a b => simp only [impRules, Except.ok.injEq] at h; simp [h]
  | or a b => simp only [impRules, Except.ok.injEq] at h; simp [h]

/-- `impRules` only throws via `addExpr`. -/
theorem impRules_error {gs s t : String} {e f : Expr} {st : Facts × Bool} {ff : Facts}
    (h : impRules gs s t e f st = .error ff) : hasKey ff gs = true := by
  cases e with
  | imp l r =>
    simp only [impRules] at h
    split at h
    · rename_i ff2 hx1
      simp only [Except.error.injEq] at h
      subst h
      exact condAddTrack_error hx1
    · rename_i st1 hx1
      split at h
      · rename_i ff2 hx2
        simp only [Except.error.injEq] at h
        subst h
        exact condAddTrack_error hx2
      · rename_i st2 hx2
        split at h
        · rename_i l2 r2
          split at h
          · exact addTrack_error h
          · exact absurd h (by simp)
        · exact absurd h (by simp)
  | var n => simp only [impRules] at h; exact absurd h (by simp)
  | not e1 => simp only [impRules] at h; exact absurd h (by simp)
  | and a b => simp only [impRules] at h; exact absurd h (by simp)
  | or a b => simp only [impRules] at h; exact absurd h (by simp)

/-- `dsRules` (Disjunctive Syllogism) with unchanged flag leaves the state
unchanged. -/
theorem dsRules_ok_false {gs s : String} {e : Expr} {st : Facts × Bool} {f2 : Facts}
    (h : dsRules gs s e st = .ok (f2, false)) : f2 = st.1 ∧ st.2 = false := by
  cases e with
  | or a b =>
    simp only [dsRules] at h
    split at h
    · simp at h
    · rename_i st1 hx1
      have hfin : f2 = st1.1 ∧ st1.2 = false := by
        split at h
        · exact addTrack_ok_false h
        · simp only [Except.ok.injEq] at h; simp [h]
      obtain ⟨h1, h2⟩ := hfin
      obtain ⟨h3, h4⟩ := condAddTrack_step hx1 h2
      exact ⟨h1.trans h3, h4⟩
  | var n => simp only [dsRules, Except.ok.injEq] at h; simp [h]
  | not e1 => simp only [dsRules, Except.ok.injEq] at h; simp [h]
  | and a b => simp only [dsRules, Except.ok.injEq] at h; simp [h]
  | imp a b => simp only [dsRules, Except.ok.injEq] at h; simp [h]

/-- `dsRules` only throws via `addExpr`. -/
theorem dsRules_error {gs s : String} {e : Expr} {st : Facts × Bool} {ff : Facts}
    (h : dsRules gs s e st = .error ff) : hasKey ff gs = true := by
  cases e with
  | or a b =>
    simp only [dsRules] at h
    split at h
    · rename_i ff2 hx1
      simp only [Except.error.injEq] at h
      subst h
      exact condAddTrack_error hx1
    · rename_i st1 hx1
      split at h
      · exact addTrack_error h
      · exact absurd h (by simp)
  | var n => simp only [dsRules] at h; exact absurd h (by simp)
  | not e1 => simp only [dsRules] at h; exact absurd h (by simp)
  | and a b => simp only [dsRules] at h; exact absurd h (by simp)
  | imp a b => simp only [dsRules] at h; exact absurd h (by simp)

/-- `conjIntroStep` with unchanged flag leaves the state unchanged. -/
theorem conjIntroStep_ok_false {g : Expr} {gs : String} {e f : Expr} {st : Facts × Bool}
    {f2 : Facts}
    (h : conjIntroStep g gs e f st = .ok (f2, false)) : f2 = st.1 ∧ st.2 = false := by
  cases g with
  | and gl gr =>
    simp only [conjIntroStep] at h
    split at h
    · split at h
      · exact addTrack_ok_false h
      · simp only [Except.ok.injEq] at h; simp [h]
    · simp only [Except.ok.injEq] at h; simp [h]
  | var n => simp only [conjIntroStep, Except.ok.injEq] at h; simp [h]
  | not e1 => simp only [conjIntroStep, Except.ok.injEq] at h; simp [h]
  | or a b => simp only [conjIntroStep, Except.ok.injEq] at h; simp [h]
  | imp a b => simp only [conjIntroStep, Except.ok.injEq] at h; simp [h]

/-- `conjIntroStep` only throws via `addExpr`. -/
theorem conjIntroStep_error {g : Expr} {gs : String} {e f : Expr} {st : Facts × Bool}
    {ff : Facts}
    (h : conjIntroStep g gs e f st = .error ff) : hasKey ff gs = true := by
  cases g with
  | and gl gr =>
    simp only [conjIntroStep] at h
    split at h
    · split at h
      · exact addTrack_error h
      · exact absurd h (by simp)
    · exact absurd h (by simp)
  | var n => simp only [conjIntroStep] at h; exact absurd h (by simp)
  | not e1 => simp only [conjIntroStep] at h; exact absurd h (by simp)
  | or a b => simp only [conjIntroStep] at h; exact absurd h (by simp)
  | imp a b => simp only [conjIntroStep] at h; exact absurd h (by simp)

/-- The inner snapshot loop with unchanged flag leaves the state unchanged. -/
theorem innerLoop_ok_false {g : Expr} {gs s : String} {e : Expr} :
    ∀ {pending : List String} {st : Facts × Bool} {f2 : Facts},
      innerLoop g gs s e pending st = .ok (f2, false) → f2 = st.1 ∧ st.2 = false := by
  intro pending
  induction pending with
  | nil =>
    intro st f2 h
    simp only [innerLoop, Except.ok.injEq] at h
    simp [h]
  | cons t ts ih =>
    intro st f2 h
    simp only [innerLoop] at h
    split at h
    · exact ih h
    · split at h
      · exact ih h
      · rename_i tf htf
        split at h
        · simp at h
        · rename_i st1 hx1
          split at h
          · simp at h
          · rename_i st2 hx2
            split at h
            · simp at h
            · rename_i st3 hx3
              obtain ⟨h1, h2⟩ := ih h
              obtain ⟨fa3, ca3⟩ := st3
              simp only at h2
              subst h2
              obtain ⟨h3, h4⟩ := conjIntroStep_ok_false hx3
              obtain ⟨fa2, ca2⟩ := st2
              simp only at h4
              subst h4
              obtain ⟨h5, h6⟩ := dsRules_ok_false hx2
              obtain ⟨fa1, ca1⟩ := st1
              simp only at h6
              subst h6
              obtain ⟨h7, h8⟩ := impRules_ok_false hx1
              exact ⟨h1.trans (h3.trans (h5.trans h7)), h8⟩

/-- The inner snapshot loop only throws via `addExpr`. -/
theorem innerLoop_error {g : Expr} {gs s : String} {e : Expr} :
    ∀ {pending : List String} {st : Facts × Bool} {ff : Facts},
      innerLoop g gs s e pending st = .error ff → hasKey ff gs = true := by
  intro pending
  induction pending with
  | nil => intro st ff h; simp only [innerLoop] at h; exact absurd h (by simp)
  | cons t ts ih =>
    intro st ff h
    simp only [innerLoop] at h
    split at h
    · exact ih h
    · split at h
      · exact ih h
      · rename_i tf htf
        split at h
        · rename_i ff2 hx1
          simp only [Except.error.injEq] at h
          subst h
          exact impRules_error hx1
        · rename_i st1 hx1
          split at h
          · rename_i ff2 hx2
            simp only [Except.error.injEq] at h
            subst h
            exact dsRules_error hx2
          · rename_i st2 hx2
            split at h
            · rename_i ff2 hx3
              simp only [Except.error.injEq] at h
              subst h
              exact conjIntroStep_error hx3
            · exact ih h

/-- The outer snapshot loop with unchanged flag leaves the state unchanged. -/
theorem outerLoop_ok_false {g : Expr} {gs : String} {keys : List String} :
    ∀ {pending : List String} {st : Facts × Bool} {f2 : Facts},
      outerLoop g gs keys pending st = .ok (f2, false) → f2 = st.1 ∧ st.2 = false := by
  intro pending
  induction pending with
  | nil =>
    intro st f2 h
    simp only [outerLoop, Except.ok.injEq] at h
    simp [h]
  | cons s ss ih =>
    intro st f2 h
    simp only [outerLoop] at h
    split at h
    · exact ih h
    · rename_i sf hsf
      split at h
      · simp at h
      · rename_i st1 hx1
        split at h
        · simp at h
        · rename_i st2 hx2
          obtain ⟨h1, h2⟩ := ih h
          obtain ⟨fa2, ca2⟩ := st2
          simp only at h2
          subst h2
          obtain ⟨h3, h4⟩ := innerLoop_ok_false hx2
          obtain ⟨fa1, ca1⟩ := st1
          simp only at h4
          subst h4
          obtain ⟨h5, h6⟩ := simplificationStep_ok_false hx1
          exact ⟨h1.trans (h3.trans h5), h6⟩

/-- The outer snapshot loop only throws via `addExpr`. -/
theorem outerLoop_error {g : Expr} {gs : String} {keys : List String} :
    ∀ {pending : List String} {st : Facts × Bool} {ff : Facts},
      outerLoop g gs keys pending st = .error ff → hasKey ff gs = true := by
  intro pending
  induction pending with
  | nil => intro st ff h; simp only [outerLoop] at h; exact absurd h (by simp)
  | cons s ss ih =>
    intro st ff h
    simp only [outerLoop] at h
    split at h
    · exact ih h
    · rename_i sf hsf
      split at h
      · rename_i ff2 hx1
        simp only [Except.error.injEq] at h
        subst h
        exact simplificationStep_error hx1
      · rename_i st1 hx1
        split at h
        · rename_i ff2 hx2
          simp only [Except.error.injEq] at h
          subst h
          exact innerLoop_error hx2
        · exact ih h

/-- A pass that reports no change leaves the fact list unchanged
(fixed point). -/
theorem runPass_ok_false {g : Expr} {gs : String} {facts f2 : Facts}
    (h : runPass g gs facts = .ok (f2, false)) : f2 = facts := by
  simp only [runPass] at h
  exact (outerLoop_ok_false h).1

/-- A pass only throws via `addExpr`: the goal is in the thrown fact list. -/
theorem runPass_error {g : Expr} {gs : String} {facts ff : Facts}
    (h : runPass g gs facts = .error ff) : hasKey ff gs = true := by
  simp only [runPass] at h
  exact outerLoop_error h

/-- The pass loop, started with `changed = true`: on normal exit the final
safety counter stays within the bound and either the 5000-pass bound was
hit or the last pass was a fixed point. -/
theorem chainLoop_ok_inv {g : Expr} {gs : String} :
    ∀ (n : Nat) {f : Facts} {s : Nat} {c : Bool} {f2 : Facts} {s2 : Nat} {c2 : Bool},
      5000 - s ≤ n → s ≤ 5000 → c = true →
      chainLoop g gs f s c = .ok (f2, s2, c2) →
      s2 ≤ 5000 ∧ (s2 = 5000 ∨ (c2 = false ∧ runPass g gs f2 = .ok (f2, false))) := by
  intro n
  induction n with
  | zero =>
    intro f s c f2 s2 c2 hn hs hc h
    unfold chainLoop at h
    rw [dif_neg (by omega)] at h
    simp only [Except.ok.injEq, Prod.mk.injEq] at h
    omega
  | succ n ih =>
    intro f s c f2 s2 c2 hn hs hc h
    subst hc
    unfold chainLoop at h
    by_cases hlt : s < 5000
    · rw [dif_pos ⟨rfl, hlt⟩] at h
      split at h
      · simp at h
      · rename_i fp cp hp
        cases cp with
        | false =>
          unfold chainLoop at h
          rw [dif_neg (by simp)] at h
          simp only [Except.ok.injEq, Prod.mk.injEq] at h
          obtain ⟨hf, hs2, hc2⟩ := h
          subst hf
          refine ⟨by omega, Or.inr ⟨hc2.symm, ?_⟩⟩
          have hfix := runPass_ok_false hp
          subst hfix
          exact hp
        | true => exact ih (by omega) (by omega) rfl h
    · rw [dif_neg (by omega)] at h
      simp only [Except.ok.injEq, Prod.mk.injEq] at h
      omega

/-- The pass loop only exits exceptionally when the goal has just been
added to the fact set. -/
theorem chainLoop_error_inv {g : Expr} {gs : String} :
    ∀ (n : Nat) {f : Facts} {s : Nat} {c : Bool} {ff : Facts},
      5000 - s ≤ n →
      chainLoop g gs f s c = .error ff → hasKey ff gs = true := by
  intro n
  induction n with
  | zero =>
    intro f s c ff hn h
    unfold chainLoop at h
    rw [dif_neg (by omega)] at h
    exact absurd h (by simp)
  | succ n ih =>
    intro f s c ff hn h
    unfold chainLoop at h
    split at h
    · split at h
      · rename_i ff2 hp
        simp only [Except.error.injEq] at h
        subst h
        exact runPass_error hp
      · rename_i fp cp hp
        exact ih (by omega) h
    · exact absurd h (by simp)

/-- C10: the forward-chaining pass loop terminates on every input: started
with `changed = true`, it stops with the safety counter at most 5000, and on
normal exit either the 5000-pass safety bound was reached or the last pass
added no new fact (a fixed point: re-running the pass changes nothing);
the exceptional exit happens exactly when the goal key has been added. -/
theorem c10_chainLoop_terminates (goalExpr : Expr) (goalStr : String) (facts : Facts) :
    (∀ f2 s2 c2, chainLoop goalExpr goalStr facts 0 true = .ok (f2, s2, c2) →
      s2 ≤ 5000 ∧ (s2 = 5000 ∨ (c2 = false ∧
        runPass goalExpr goalStr f2 = .ok (f2, false)))) ∧
    (∀ ff, chainLoop goalExpr goalStr facts 0 true = .error ff →
      hasKey ff goalStr = true) :=
  ⟨fun _ _ _ h => chainLoop_ok_inv 5000 (by omega) (by omega) rfl h,
   fun _ h => chainLoop_error_inv 5000 (by omega) h⟩

/-- Witness for C10 at a concrete input: with no facts and goal `Q` the
loop exits after one pass at a fixed point with the counter at 1. -/
theorem c10_chainLoop_terminates_witness :
    (1 : Nat) ≤ 5000 ∧ ((1 : Nat) = 5000 ∨ (false = false ∧
      runPass (Expr.var "Q") "Q" [] = .ok ([], false))) :=
  (c10_chainLoop_terminates (Expr.var "Q") "Q" []).1 [] 1 false
    (by simp [chainLoop, runPass, outerLoop])

/-! ### Tokenizer lemmas: `tokenize (exprToStr t)` yields the canonical token list -/

theorem preprocess_cons_special {c : Char} (l : List Char) (h1 : isSpecialChar c = true) :
    preprocess (c :: l) = ' ' :: c :: ' ' :: preprocess l := by
  rw [preprocess.eq_def]
  split
  · rename_i heq
    simp at heq
  · rename_i rest heq
    simp only [List.cons.injEq] at heq
    obtain ⟨hc, hl⟩ := heq
    subst hc
    simp [isSpecialChar] at h1
  · rename_i c2 rest hnd heq
    simp only [List.cons.injEq] at heq
    obtain ⟨hc, hl⟩ := heq
    subst hc
    subst hl
    rw [if_pos h1]

theorem preprocess_cons_other {c : Char} (l : List Char) (h1 : isSpecialChar c = false)
    (h2 : ¬(c = '-' ∧ l.head? = some '>')) :
    preprocess (c :: l) = c :: preprocess l := by
  rw [preprocess.eq_def]
  split
  · rename_i heq
    simp at heq
  · rename_i rest heq
    simp only [List.cons.injEq] at heq
    obtain ⟨hc, hl⟩ := heq
    exact absurd ⟨hc, by rw [hl]; rfl⟩ h2
  · rename_i c2 rest hnd heq
    simp only [List.cons.injEq] at heq
    obtain ⟨hc, hl⟩ := heq
    subst hc
    subst hl
    rw [if_neg (by simp [h1])]

theorem preprocess_append (b : List Char) (hb : b.head? ≠ some '>') :
    ∀ a : List Char, preprocess (a ++ b) = preprocess a ++ preprocess b := by
  intro a
  induction a using preprocess.induct with
  | case1 =>
    rw [List.nil_append, show preprocess [] = ([] : List Char) from rfl, List.nil_append]
  | case2 rest ih =>
    simp only [List.cons_append]
    rw [show preprocess ('-' :: '>' :: (rest ++ b)) = ' ' :: '-' :: '>' :: ' ' :: preprocess (rest ++ b) from rfl]
    rw [ih]
    rfl
  | case3 c rest hnd hsp ih =>
    simp only [List.cons_append]
    rw [preprocess_cons_special _ hsp, preprocess_cons_special _ hsp, ih]
    rfl
  | case4 c rest hnd hsp ih =>
    have h1 : isSpecialChar c = false := by
      cases hx : isSpecialChar c
      · rfl
      · exact absurd hx hsp
    have h2 : ¬(c = '-' ∧ (rest ++ b).head? = some '>') := by
      rintro ⟨hc, hhd⟩
      cases rest with
      | nil => simp at hhd; exact hb (by simp [hhd])
      | cons r0 rs =>
        simp at hhd
        exact hnd rs hc (by rw [hhd])
    have h3 : ¬(c = '-' ∧ rest.head? = some '>') := by
      rintro ⟨hc, hhd⟩
      cases rest with
      | nil => simp at hhd
      | cons r0 rs =>
        simp at hhd
        exact hnd rs hc (by rw [hhd])
    simp only [List.cons_append]
    rw [preprocess_cons_other _ h1 h2, preprocess_cons_other _ h1 h3, ih]
    rfl

theorem words_space (l : List Char) : wordsAux (' ' :: l) [] = wordsAux l [] := rfl

theorem words_char_space {c : Char} (h : c.isWhitespace = false) (l : List Char) :
    wordsAux (c :: ' ' :: l) [] = String.mk [c] :: wordsAux l [] := by
  simp [wordsAux, h, show (' ' : Char).isWhitespace = true from rfl]

theorem words_digraph (l : List Char) :
    wordsAux ('-' :: '>' :: ' ' :: l) [] = "->" :: wordsAux l [] := rfl

theorem wordsAux_split : ∀ (a bs cur : List Char),
    wordsAux (a ++ ' ' :: bs) cur = wordsAux a cur ++ wordsAux bs [] := by
  intro a
  induction a with
  | nil =>
    intro bs cur
    by_cases hcur : cur.isEmpty <;>
      simp [wordsAux, hcur, show (' ' : Char).isWhitespace = true from rfl]
  | cons c a' ih =>
    intro bs cur
    by_cases hws : c.isWhitespace
    · by_cases hcur : cur.isEmpty <;> simp [wordsAux, hws, hcur, ih]
    · simp only [List.cons_append, wordsAux, hws]
      simp only [Bool.false_eq_true, if_false]
      exact ih bs (c :: cur)

theorem words_atomic_append {A : List Char} {n : String} (hA : wordsAux A [] = [n])
    (B : List Char) (hB : B = [] ∨ ∃ X, B = ' ' :: X) :
    wordsAux (A ++ B) [] = n :: wordsAux B [] := by
  rcases hB with hB | ⟨X, hB⟩
  · subst hB; simp [hA, wordsAux]
  · subst hB
    rw [wordsAux_split, hA, words_space]
    rfl

theorem preprocess_lparen (l : List Char) : preprocess ('(' :: l) = ' ' :: '(' :: ' ' :: preprocess l := rfl
theorem preprocess_rparen (l : List Char) : preprocess (')' :: l) = ' ' :: ')' :: ' ' :: preprocess l := rfl
theorem preprocess_tilde (l : List Char) : preprocess ('~' :: l) = ' ' :: '~' :: ' ' :: preprocess l := rfl
theorem preprocess_amp (l : List Char) : preprocess ('&' :: l) = ' ' :: '&' :: ' ' :: preprocess l := rfl
theorem preprocess_pipe (l : List Char) : preprocess ('|' :: l) = ' ' :: '|' :: ' ' :: preprocess l := rfl
theorem preprocess_space (l : List Char) : preprocess (' ' :: l) = ' ' :: preprocess l := rfl
theorem preprocess_arrow (l : List Char) : preprocess ('-' :: '>' :: l) = ' ' :: '-' :: '>' :: ' ' :: preprocess l := rfl
theorem preprocess_nil : preprocess [] = [] := rfl

theorem words_lparen (l : List Char) : wordsAux ('(' :: ' ' :: l) [] = "(" :: wordsAux l [] := rfl
theorem words_rparen (l : List Char) : wordsAux (')' :: ' ' :: l) [] = ")" :: wordsAux l [] := rfl
theorem words_tilde (l : List Char) : wordsAux ('~' :: ' ' :: l) [] = "~" :: wordsAux l [] := rfl
theorem words_amp (l : List Char) : wordsAux ('&' :: ' ' :: l) [] = "&" :: wordsAux l [] := rfl
theorem words_pipe (l : List Char) : wordsAux ('|' :: ' ' :: l) [] = "|" :: wordsAux l [] := rfl

theorem data_lparen : ("(" : String).data = ['('] := rfl
theorem data_rparen : (")" : String).data = [')'] := rfl
theorem data_tilde : ("~" : String).data = ['~'] := rfl
theorem data_tilde_lparen : ("~(" : String).data = ['~', '('] := rfl
theorem data_amp : (" & " : String).data = [' ', '&', ' '] := rfl
theorem data_pipe : (" | " : String).data = [' ', '|', ' '] := rfl
theorem data_arrow : (" -> " : String).data = [' ', '-', '>', ' '] := rfl

theorem exprToStr_tokenize_aux : ∀ (t : Expr) (rest : List Char), wfExpr t = true →
    (rest = [] ∨ rest.head? = some ' ' ∨ rest.head? = some ')') →
    wordsAux (preprocess ((exprToStr t).data ++ rest)) [] =
      toks t ++ wordsAux (preprocess rest) [] := by
  intro t
  induction t with
  | var n =>
    intro rest hwf hrest
    simp only [wfExpr, wfName, tokenAtomic, Bool.and_eq_true, beq_iff_eq] at hwf
    obtain ⟨⟨hatom, -⟩, -⟩ := hwf
    have hhd : rest.head? ≠ some '>' := by
      rcases hrest with h | h | h <;> simp [h]
    rw [preprocess_append rest hhd]
    have hB : preprocess rest = [] ∨ ∃ X, preprocess rest = ' ' :: X := by
      rcases hrest with h | h | h
      · subst h; exact Or.inl preprocess_nil
      · rcases rest with - | ⟨r0, rs⟩
        · simp at h
        · simp only [List.head?_cons, Option.some.injEq] at h
          subst h
          exact Or.inr ⟨preprocess rs, preprocess_space rs⟩
      · rcases rest with - | ⟨r0, rs⟩
        · simp at h
        · simp only [List.head?_cons, Option.some.injEq] at h
          subst h
          exact Or.inr ⟨')' :: ' ' :: preprocess rs, preprocess_rparen rs⟩
    have hA : wordsAux (preprocess (exprToStr (Expr.var n)).data) [] = [n] := hatom
    rw [words_atomic_append hA _ hB]
    rfl
  | not u ih =>
    intro rest hwf hrest
    simp only [wfExpr] at hwf
    cases u with
    | var m =>
      have hIH := ih rest hwf hrest
      show wordsAux (preprocess (("~" ++ exprToStr (Expr.var m)).data ++ rest)) [] = _
      rw [String.data_append, data_tilde]
      simp only [List.cons_append, List.nil_append]
      rw [preprocess_tilde, words_space, words_tilde, hIH]
      rfl
    | not u2 =>
      have hIH := ih (')' :: rest) hwf (Or.inr (Or.inr rfl))
      show wordsAux (preprocess (("~(" ++ exprToStr (Expr.not u2) ++ ")").data ++ rest)) [] = _
      rw [String.data_append, String.data_append, data_tilde_lparen, data_rparen]
      simp only [List.cons_append, List.nil_append, List.append_assoc]
      rw [preprocess_tilde, words_space, words_tilde, preprocess_lparen, words_space,
        words_lparen]
      rw [hIH, preprocess_rparen, words_space, words_rparen]
      show _ = ("~" :: "(" :: (toks (Expr.not u2) ++ [")"])) ++ wordsAux (preprocess rest) []
      simp [List.append_assoc]
    | and a b =>
      have hIH := ih (')' :: rest) hwf (Or.inr (Or.inr rfl))
      show wordsAux (preprocess (("~(" ++ exprToStr (Expr.and a b) ++ ")").data ++ rest)) [] = _
      rw [String.data_append, String.data_append, data_tilde_lparen, data_rparen]
      simp only [List.cons_append, List.nil_append, List.append_assoc]
      rw [preprocess_tilde, words_space, words_tilde, preprocess_lparen, words_space,
        words_lparen]
      rw [hIH, preprocess_rparen, words_space, words_rparen]
      show _ = ("~" :: "(" :: (toks (Expr.and a b) ++ [")"])) ++ wordsAux (preprocess rest) []
      simp [List.append_assoc]
    | or a b =>
      have hIH := ih (')' :: rest) hwf (Or.inr (Or.inr rfl))
      show wordsAux (preprocess (("~(" ++ exprToStr (Expr.or a b) ++ ")").data ++ rest)) [] = _
      rw [String.data_append, String.data_append, data_tilde_lparen, data_rparen]
      simp only [List.cons_append, List.nil_append, List.append_assoc]
      rw [preprocess_tilde, words_space, words_tilde, preprocess_lparen, words_space,
        words_lparen]
      rw [hIH, preprocess_rparen, words_space, words_rparen]
      show _ = ("~" :: "(" :: (toks (Expr.or a b) ++ [")"])) ++ wordsAux (preprocess rest) []
      simp [List.append_assoc]
    | imp a b =>
      have hIH := ih (')' :: rest) hwf (Or.inr (Or.inr rfl))
      show wordsAux (preprocess (("~(" ++ exprToStr (Expr.imp a b) ++ ")").data ++ rest)) [] = _
      rw [String.data_append, String.data_append, data_tilde_lparen, data_rparen]
      simp only [List.cons_append, List.nil_append, List.append_assoc]
      rw [preprocess_tilde, words_space, words_tilde, preprocess_lparen, words_space,
        words_lparen]
      rw [hIH, preprocess_rparen, words_space, words_rparen]
      show _ = ("~" :: "(" :: (toks (Expr.imp a b) ++ [")"])) ++ wordsAux (preprocess rest) []
      simp [List.append_assoc]
  | and l r ihl ihr =>
    intro rest hwf hrest
    simp only [wfExpr, Bool.and_eq_true] at hwf
    obtain ⟨hwfl, hwfr⟩ := hwf
    have hRIH := ihr (')' :: rest) hwfr (Or.inr (Or.inr rfl))
    have hLIH := ihl (' ' :: '&' :: ' ' :: ((exprToStr r).data ++ ')' :: rest)) hwfl
      (Or.inr (Or.inl rfl))
    show wordsAux (preprocess
      (("(" ++ exprToStr l ++ " & " ++ exprToStr r ++ ")").data ++ rest)) [] = _
    rw [String.data_append, String.data_append, String.data_append, String.data_append,
      data_lparen, data_amp, data_rparen]
    simp only [List.cons_append, List.nil_append, List.append_assoc]
    rw [preprocess_lparen, words_space, words_lparen]
    rw [hLIH, preprocess_space, words_space, preprocess_amp, words_space, words_amp,
      preprocess_space, words_space, hRIH, preprocess_rparen, words_space, words_rparen]
    simp [toks, List.append_assoc]
  | or l r ihl ihr =>
    intro rest hwf hrest
    simp only [wfExpr, Bool.and_eq_true] at hwf
    obtain ⟨hwfl, hwfr⟩ := hwf
    have hRIH := ihr (')' :: rest) hwfr (Or.inr (Or.inr rfl))
    have hLIH := ihl (' ' :: '|' :: ' ' :: ((exprToStr r).data ++ ')' :: rest)) hwfl
      (Or.inr (Or.inl rfl))
    show wordsAux (preprocess
      (("(" ++ exprToStr l ++ " | " ++ exprToStr r ++ ")").data ++ rest)) [] = _
    rw [String.data_append, String.data_append, String.data_append, String.data_append,
      data_lparen, data_pipe, data_rparen]
    simp only [List.cons_append, List.nil_append, List.append_assoc]
    rw [preprocess_lparen, words_space, words_lparen]
    rw [hLIH, preprocess_space, words_space, preprocess_pipe, words_space, words_pipe,
      preprocess_space, words_space, hRIH, preprocess_rparen, words_space, words_rparen]
    simp [toks, List.append_assoc]
  | imp l r ihl ihr =>
    intro rest hwf hrest
    simp only [wfExpr, Bool.and_eq_true] at hwf
    obtain ⟨hwfl, hwfr⟩ := hwf
    have hRIH := ihr (')' :: rest) hwfr (Or.inr (Or.inr rfl))
    have hLIH := ihl (' ' :: '-' :: '>' :: ' ' :: ((exprToStr r).data ++ ')' :: rest)) hwfl
      (Or.inr (Or.inl rfl))
    show wordsAux (preprocess
      (("(" ++ exprToStr l ++ " -> " ++ exprToStr r ++ ")").data ++ rest)) [] = _
    rw [String.data_append, String.data_append, String.data_append, String.data_append,
      data_lparen, data_arrow, data_rparen]
    simp only [List.cons_append, List.nil_append, List.append_assoc]
    rw [preprocess_lparen, words_space, words_lparen]
    rw [hLIH, preprocess_space, words_space, preprocess_arrow, words_space, words_digraph,
      preprocess_space, words_space, hRIH, preprocess_rparen, words_space, words_rparen]
    simp [toks, List.append_assoc]

theorem tokenize_exprToStr {t : Expr} (h : wfExpr t = true) : tokenize (exprToStr t) = toks t := by
  have haux := exprToStr_tokenize_aux t [] h (Or.inl rfl)
  rw [List.append_nil] at haux
  simpa [tokenize, preprocess_nil, wordsAux] using haux

/-! ### Parser round-trip: the canonical rendering parses back to the same tree -/

theorem weakenP_map {n m : Nat} (h : n ≤ m)
    (x : Except ParseError (Expr × { l : List String // l.length ≤ n })) :
    (weakenP h x).map (fun p => (p.1, p.2.1)) = x.map (fun p => (p.1, p.2.1)) := by
  cases x with
  | error e => rfl
  | ok p => obtain ⟨e, ⟨l, hl⟩⟩ := p; rfl

theorem parsePrimary_nil : parsePrimary [] = .error ParseError.unexpectedEnd := by
  simp [parsePrimary, parsePrimaryCore, Except.map]

theorem parsePrimary_var {t : String} (rest : List String) (ht : t ≠ "(") :
    parsePrimary (t :: rest) = .ok (Expr.var t, rest) := by
  simp only [parsePrimary]
  rw [parsePrimaryCore.eq_def]
  simp [ht, Except.map]

theorem parsePrimary_paren_ok {rest : List String} {e : Expr} {rest3 : List String}
    (h : parseImplication rest = .ok (e, ")" :: rest3)) :
    parsePrimary ("(" :: rest) = .ok (e, rest3) := by
  simp only [parseImplication] at h
  simp only [parsePrimary]
  rw [parsePrimaryCore.eq_def]
  cases hx : parseImplicationCore rest with
  | error e2 => rw [hx] at h; exact absurd h (by simp [Except.map])
  | ok p =>
    obtain ⟨e2, ⟨rest2, hle⟩⟩ := p
    rw [hx] at h
    simp only [Except.map, Except.ok.injEq, Prod.mk.injEq] at h
    obtain ⟨he, hr⟩ := h
    subst he
    subst hr
    simp [hx, Except.map]

theorem parsePrimary_paren_missing {rest : List String} {e : Expr} {rest2 : List String}
    (h : parseImplication rest = .ok (e, rest2)) (hr : rest2.head? ≠ some ")") :
    parsePrimary ("(" :: rest) = .error ParseError.missingClose := by
  simp only [parseImplication] at h
  simp only [parsePrimary]
  rw [parsePrimaryCore.eq_def]
  cases hx : parseImplicationCore rest with
  | error e2 => rw [hx] at h; exact absurd h (by simp [Except.map])
  | ok p =>
    obtain ⟨e2, ⟨rest2b, hle⟩⟩ := p
    rw [hx] at h
    simp only [Except.map, Except.ok.injEq, Prod.mk.injEq] at h
    obtain ⟨he, hrb⟩ := h
    subst he
    subst hrb
    simp [hx, Except.map, hr]

theorem parsePrimary_paren_error {rest : List String} {e : ParseError}
    (h : parseImplication rest = .error e) :
    parsePrimary ("(" :: rest) = .error e := by
  simp only [parseImplication] at h
  simp only [parsePrimary]
  rw [parsePrimaryCore.eq_def]
  cases hx : parseImplicationCore rest with
  | ok p =>
    obtain ⟨e2, ⟨rest2, hle⟩⟩ := p
    rw [hx] at h
    exact absurd h (by simp [Except.map])
  | error e2 =>
    rw [hx] at h
    simp only [Except.map, Except.error.injEq] at h
    subst h
    simp [hx, Except.map]

theorem parseNot_tilde (rest : List String) :
    parseNot ("~" :: rest) = match parseNot rest with
      | .error e => .error e
      | .ok (e, rest2) => .ok (Expr.not e, rest2) := by
  simp only [parseNot]
  rw [parseNotCore.eq_def]
  cases hx : parseNotCore rest with
  | error e => simp [hx, Except.map]
  | ok p =>
    obtain ⟨e, ⟨rest2, hle⟩⟩ := p
    simp [hx, Except.map]

theorem parseNot_other {toks : List String} (h : toks.head? ≠ some "~") :
    parseNot toks = parsePrimary toks := by
  simp only [parseNot, parsePrimary]
  rw [parseNotCore.eq_def]
  simp [h]

theorem parseAnd_eq (toks : List String) :
    parseAnd toks = match parseNot toks with
      | .error e => .error e
      | .ok (node, rest) => andLoop node rest := by
  simp only [parseAnd, parseNot, andLoop]
  rw [parseAndCore.eq_def]
  cases hx : parseNotCore toks with
  | error e => simp [hx, Except.map]
  | ok p =>
    obtain ⟨node, ⟨rest, hle⟩⟩ := p
    simp only [hx, Except.map]
    cases hy : andLoopCore node rest with
    | error e => simp [hy, weakenP]
    | ok q => obtain ⟨e2, ⟨l2, hl2⟩⟩ := q; simp [hy, weakenP]

theorem andLoop_amp (node : Expr) (toks : List String) (h : toks.head? = some "&") :
    andLoop node toks = match parseNot toks.tail with
      | .error e => .error e
      | .ok (right, rest2) => andLoop (Expr.and node right) rest2 := by
  simp only [andLoop, parseNot]
  rw [andLoopCore.eq_def]
  rw [dif_pos h]
  cases hx : parseNotCore toks.tail with
  | error e => simp [hx, Except.map]
  | ok p =>
    obtain ⟨right, ⟨rest2, hle⟩⟩ := p
    simp only [hx, Except.map]
    cases hy : andLoopCore (Expr.and node right) rest2 with
    | error e => simp [hy, weakenP]
    | ok q => obtain ⟨e2, ⟨l2, hl2⟩⟩ := q; simp [hy, weakenP]

theorem andLoop_stop (node : Expr) {toks : List String} (h : toks.head? ≠ some "&") :
    andLoop node toks = .ok (node, toks) := by
  simp only [andLoop]
  rw [andLoopCore.eq_def]
  rw [dif_neg h]
  rfl

theorem parseOr_eq (toks : List String) :
    parseOr toks = match parseAnd toks with
      | .error e => .error e
      | .ok (node, rest) => orLoop node rest := by
  simp only [parseOr, parseAnd, orLoop]
  rw [parseOrCore.eq_def]
  cases hx : parseAndCore toks with
  | error e => simp [hx, Except.map]
  | ok p =>
    obtain ⟨node, ⟨rest, hle⟩⟩ := p
    simp only [hx, Except.map]
    cases hy : orLoopCore node rest with
    | error e => simp [hy, weakenP]
    | ok q => obtain ⟨e2, ⟨l2, hl2⟩⟩ := q; simp [hy, weakenP]

theorem orLoop_pipe (node : Expr) (toks : List String) (h : toks.head? = some "|") :
    orLoop node toks = match parseAnd toks.tail with
      | .error e => .error e
      | .ok (right, rest2) => orLoop (Expr.or node right) rest2 := by
  simp only [orLoop, parseAnd]
  rw [orLoopCore.eq_def]
  rw [dif_pos h]
  cases hx : parseAndCore toks.tail with
  | error e => simp [hx, Except.map]
  | ok p =>
    obtain ⟨right, ⟨rest2, hle⟩⟩ := p
    simp only [hx, Except.map]
    cases hy : orLoopCore (Expr.or node right) rest2 with
    | error e => simp [hy, weakenP]
    | ok q => obtain ⟨e2, ⟨l2, hl2⟩⟩ := q; simp [hy, weakenP]

theorem orLoop_stop (node : Expr) {toks : List String} (h : toks.head? ≠ some "|") :
    orLoop node toks = .ok (node, toks) := by
  simp only [orLoop]
  rw [orLoopCore.eq_def]
  rw [dif_neg h]
  rfl

theorem parseImplication_eq (toks : List String) :
    parseImplication toks = match parseOr toks with
      | .error e => .error e
      | .ok (left, rest) =>
        if rest.head? = some "->" then
          match parseImplication rest.tail with
          | .error e => .error e
          | .ok (right, rest3) => .ok (Expr.imp left right, rest3)
        else .ok (left, rest) := by
  simp only [parseImplication, parseOr]
  rw [parseImplicationCore.eq_def]
  cases hx : parseOrCore toks with
  | error e => simp [hx, Except.map]
  | ok p =>
    obtain ⟨left, ⟨rest, hle⟩⟩ := p
    simp only [Except.map]
    by_cases h : rest.head? = some "->"
    · rw [dif_pos h, if_pos h]
      cases hy : parseImplicationCore rest.tail with
      | error e => simp [hy, Except.map]
      | ok q =>
        obtain ⟨right, ⟨rest3, hle3⟩⟩ := q
        simp [hy, Except.map]
    · rw [dif_neg h, if_neg h]

theorem parseImplication_of_parseNot {u : Expr}
    (hLN : ∀ rest, parseNot (toks u ++ rest) = .ok (u, rest)) :
    ∀ rest : List String, rest.head? ≠ some "&" → rest.head? ≠ some "|" →
      rest.head? ≠ some "->" →
      parseImplication (toks u ++ rest) = .ok (u, rest) := by
  intro rest h1 h2 h3
  have ha := andLoop_stop u h1
  have ho := orLoop_stop u h2
  rw [parseImplication_eq, parseOr_eq, parseAnd_eq, hLN rest]
  simp [ha, ho, h3]

theorem parseNot_toks : ∀ (t : Expr) (rest : List String), wfExpr t = true →
    parseNot (toks t ++ rest) = .ok (t, rest) := by
  intro t
  induction t with
  | var n =>
    intro rest hwf
    simp only [wfExpr, wfName, tokenAtomic, Bool.and_eq_true, beq_iff_eq,
      Bool.not_eq_true'] at hwf
    obtain ⟨⟨hatom, hlp⟩, htl⟩ := hwf
    rw [show toks (Expr.var n) ++ rest = n :: rest from rfl]
    rw [parseNot_other (by simp [show n ≠ "~" from fun hc => by simp [hc] at htl])]
    exact parsePrimary_var rest (fun hc => by simp [hc] at hlp)
  | not u ih =>
    intro rest hwf
    simp only [wfExpr] at hwf
    cases u with
    | var m =>
      rw [show toks (Expr.not (Expr.var m)) ++ rest =
        "~" :: (toks (Expr.var m) ++ rest) from rfl]
      rw [parseNot_tilde, ih rest hwf]
    | not u2 =>
      rw [show toks (Expr.not (Expr.not u2)) ++ rest =
        "~" :: ("(" :: (toks (Expr.not u2) ++ (")" :: rest))) from by simp [toks]]
      rw [parseNot_tilde, parseNot_other (by simp),
        parsePrimary_paren_ok (parseImplication_of_parseNot (fun r => ih r hwf)
          (")" :: rest) (by simp) (by simp) (by simp))]
    | and a b =>
      rw [show toks (Expr.not (Expr.and a b)) ++ rest =
        "~" :: ("(" :: (toks (Expr.and a b) ++ (")" :: rest))) from by simp [toks]]
      rw [parseNot_tilde, parseNot_other (by simp),
        parsePrimary_paren_ok (parseImplication_of_parseNot (fun r => ih r hwf)
          (")" :: rest) (by simp) (by simp) (by simp))]
    | or a b =>
      rw [show toks (Expr.not (Expr.or a b)) ++ rest =
        "~" :: ("(" :: (toks (Expr.or a b) ++ (")" :: rest))) from by simp [toks]]
      rw [parseNot_tilde, parseNot_other (by simp),
        parsePrimary_paren_ok (parseImplication_of_parseNot (fun r => ih r hwf)
          (")" :: rest) (by simp) (by simp) (by simp))]
    | imp a b =>
      rw [show toks (Expr.not (Expr.imp a b)) ++ rest =
        "~" :: ("(" :: (toks (Expr.imp a b) ++ (")" :: rest))) from by simp [toks]]
      rw [parseNot_tilde, parseNot_other (by simp),
        parsePrimary_paren_ok (parseImplication_of_parseNot (fun r => ih r hwf)
          (")" :: rest) (by simp) (by simp) (by simp))]
  | and l r ihl ihr =>
    intro rest hwf
    simp only [wfExpr, Bool.and_eq_true] at hwf
    obtain ⟨hwfl, hwfr⟩ := hwf
    rw [show toks (Expr.and l r) ++ rest =
      "(" :: (toks l ++ ("&" :: (toks r ++ (")" :: rest)))) from by simp [toks]]
    rw [parseNot_other (by simp)]
    apply parsePrimary_paren_ok
    have h1 : andLoop l ("&" :: (toks r ++ (")" :: rest))) =
        .ok (Expr.and l r, ")" :: rest) := by
      rw [andLoop_amp l ("&" :: (toks r ++ (")" :: rest))) rfl]
      simp only [List.tail_cons]
      rw [ihr _ hwfr]
      have hstop : andLoop (Expr.and l r) (")" :: rest) =
        .ok (Expr.and l r, ")" :: rest) := andLoop_stop _ (by simp)
      simp [hstop]
    have h4 : orLoop (Expr.and l r) (")" :: rest) =
      .ok (Expr.and l r, ")" :: rest) := orLoop_stop _ (by simp)
    rw [parseImplication_eq, parseOr_eq, parseAnd_eq, ihl _ hwfl]
    simp [h1, h4]
  | or l r ihl ihr =>
    intro rest hwf
    simp only [wfExpr, Bool.and_eq_true] at hwf
    obtain ⟨hwfl, hwfr⟩ := hwf
    rw [show toks (Expr.or l r) ++ rest =
      "(" :: (toks l ++ ("|" :: (toks r ++ (")" :: rest)))) from by simp [toks]]
    rw [parseNot_other (by simp)]
    apply parsePrimary_paren_ok
    have h1 : orLoop l ("|" :: (toks r ++ (")" :: rest))) =
        .ok (Expr.or l r, ")" :: rest) := by
      rw [orLoop_pipe l ("|" :: (toks r ++ (")" :: rest))) rfl]
      simp only [List.tail_cons]
      rw [parseAnd_eq, ihr _ hwfr]
      have hstop1 : andLoop r (")" :: rest) = .ok (r, ")" :: rest) :=
        andLoop_stop _ (by simp)
      have hstop2 : orLoop (Expr.or l r) (")" :: rest) =
        .ok (Expr.or l r, ")" :: rest) := orLoop_stop _ (by simp)
      simp [hstop1, hstop2]
    have h2 : andLoop l ("|" :: (toks r ++ (")" :: rest))) =
        .ok (l, "|" :: (toks r ++ (")" :: rest))) := andLoop_stop _ (by simp)
    rw [parseImplication_eq, parseOr_eq, parseAnd_eq, ihl _ hwfl]
    simp [h2, h1]
  | imp l r ihl ihr =>
    intro rest hwf
    simp only [wfExpr, Bool.and_eq_true] at hwf
    obtain ⟨hwfl, hwfr⟩ := hwf
    rw [show toks (Expr.imp l r) ++ rest =
      "(" :: (toks l ++ ("->" :: (toks r ++ (")" :: rest)))) from by simp [toks]]
    rw [parseNot_other (by simp)]
    apply parsePrimary_paren_ok
    have h2 : andLoop l ("->" :: (toks r ++ (")" :: rest))) =
        .ok (l, "->" :: (toks r ++ (")" :: rest))) := andLoop_stop _ (by simp)
    have ho : orLoop l ("->" :: (toks r ++ (")" :: rest))) =
        .ok (l, "->" :: (toks r ++ (")" :: rest))) := orLoop_stop _ (by simp)
    have h3 := parseImplication_of_parseNot (fun rr => ihr rr hwfr)
      (")" :: rest) (by simp) (by simp) (by simp)
    rw [parseImplication_eq, parseOr_eq, parseAnd_eq, ihl _ hwfl]
    simp [h2, ho, h3]

theorem parseFromString_exprToStr {t : Expr} (h : wfExpr t = true) :
    parseFromString (exprToStr t) = .ok t := by
  have hLI := parseImplication_of_parseNot (fun r => parseNot_toks t r h) []
    (by simp) (by simp) (by simp)
  rw [List.append_nil] at hLI
  simp only [parseFromString]
  rw [tokenize_exprToStr h]
  simp only [parseImplication] at hLI
  cases hx : parseImplicationCore (toks t) with
  | error e => rw [hx] at hLI; exact absurd hLI (by simp [Except.map])
  | ok p =>
    obtain ⟨e2, ⟨rest2, hle⟩⟩ := p
    rw [hx] at hLI
    simp only [Except.map, Except.ok.injEq, Prod.mk.injEq] at hLI
    obtain ⟨he, hr⟩ := hLI
    subst he
    subst hr
    simp

theorem preprocess_id : ∀ l : List Char, (∀ c ∈ l, isSpecialChar c = false) →
    noImpDigraph l = true → preprocess l = l := by
  intro l
  induction l using preprocess.induct with
  | case1 => intro _ _; rfl
  | case2 rest ih =>
    intro hsp hnd
    simp [noImpDigraph] at hnd
  | case3 c rest hnd2 hsp2 ih =>
    intro hsp hnd
    have := hsp c (by simp)
    rw [this] at hsp2
    simp at hsp2
  | case4 c rest hnd2 hsp2 ih =>
    intro hsp hnd
    have h1 : isSpecialChar c = false := hsp c (by simp)
    have h2 : ¬(c = '-' ∧ rest.head? = some '>') := by
      rintro ⟨hc, hh⟩
      subst hc
      cases rest with
      | nil => simp at hh
      | cons r0 rs =>
        simp at hh
        subst hh
        simp [noImpDigraph] at hnd
    rw [preprocess_cons_other _ h1 h2]
    have hnd3 : noImpDigraph rest = true := by
      rw [noImpDigraph.eq_def] at hnd
      split at hnd
      · rename_i x heq
        simp at heq
      · exact absurd hnd (by simp)
      · rename_i heq
        cases heq
        exact hnd
    rw [ih (fun c2 hc2 => hsp c2 (by simp [hc2])) hnd3]

theorem words_all_nonws : ∀ (l cur : List Char), (∀ c ∈ l, c.isWhitespace = false) →
    wordsAux l cur =
      if (cur.reverse ++ l).isEmpty then [] else [String.mk (cur.reverse ++ l)] := by
  intro l
  induction l with
  | nil =>
    intro cur hws
    by_cases hc : cur = []
    · subst hc; rfl
    · have h1 : cur.isEmpty = false := by simp [List.isEmpty_iff, hc]
      have h2 : (cur.reverse ++ []).isEmpty = false := by simp [List.isEmpty_iff, hc]
      simp [wordsAux, h1, h2]
      rw [if_neg hc]
  | cons c ls ih =>
    intro cur hws
    have hc : c.isWhitespace = false := hws c (by simp)
    simp only [wordsAux, hc, Bool.false_eq_true, if_false]
    rw [ih (c :: cur) (fun c2 hc2 => hws c2 (by simp [hc2]))]
    simp [List.isEmpty_iff]

theorem validNameSpec_wfName {n : String} (h : validNameSpec n = true) :
    wfName n = true := by
  simp only [validNameSpec, Bool.and_eq_true, Bool.not_eq_true',
    List.all_eq_true] at h
  obtain ⟨⟨hne, hchars⟩, hnd⟩ := h
  have hnosp : ∀ c ∈ n.data, isSpecialChar c = false := by
    intro c hc
    have := hchars c hc
    simp only [isNameChar, Bool.and_eq_true, Bool.not_eq_true'] at this
    exact this.2
  have hnows : ∀ c ∈ n.data, c.isWhitespace = false := by
    intro c hc
    have := hchars c hc
    simp only [isNameChar, Bool.and_eq_true, Bool.not_eq_true'] at this
    exact this.1
  have hdata : n.data ≠ [] := by
    intro hc
    have hn : n = "" := by
      cases n with
      | mk d =>
        have hd : d = [] := hc
        subst hd
        rfl
    rw [hn] at hne
    exact absurd hne (by decide)
  have htok : tokenize n = [n] := by
    simp only [tokenize]
    rw [preprocess_id n.data hnosp hnd, words_all_nonws n.data [] hnows]
    simp [List.isEmpty_iff, hdata]
  have hlp : n ≠ "(" := by
    intro hc
    subst hc
    have := hnosp '(' (by decide)
    simp [isSpecialChar] at this
  have htl : n ≠ "~" := by
    intro hc
    subst hc
    have := hnosp '~' (by decide)
    simp [isSpecialChar] at this
  simp [wfName, tokenAtomic, htok, hlp, htl]

theorem wfExprSpec_wfExpr : ∀ {t : Expr}, wfExprSpec t = true → wfExpr t = true := by
  intro t
  induction t with
  | var n => intro h; exact validNameSpec_wfName h
  | not u ih => intro h; exact ih h
  | and l r ihl ihr =>
    intro h
    simp only [wfExprSpec, Bool.and_eq_true] at h
    simp [wfExpr, ihl h.1, ihr h.2]
  | or l r ihl ihr =>
    intro h
    simp only [wfExprSpec, Bool.and_eq_true] at h
    simp [wfExpr, ihl h.1, ihr h.2]
  | imp l r ihl ihr =>
    intro h
    simp only [wfExprSpec, Bool.and_eq_true] at h
    simp [wfExpr, ihl h.1, ihr h.2]

/-- C6: parsing round-trips through the canonical printer: for every
expression tree (with data-model-conforming variable names), parsing the
canonical rendering succeeds and yields a tree with the same canonical
rendering. -/
theorem c6_parse_roundtrip (t : Expr) (h : wfExprSpec t = true) :
    ∃ t2, parseFromString (exprToStr t) = Except.ok t2 ∧
      exprToStr t2 = exprToStr t :=
  ⟨t, parseFromString_exprToStr (wfExprSpec_wfExpr h), rfl⟩

/-- Witness for C6 at the concrete tree `~P -> (Q & R)`. -/
theorem c6_parse_roundtrip_witness :
    ∃ t2, parseFromString (exprToStr (Expr.imp (Expr.not (Expr.var "P"))
      (Expr.and (Expr.var "Q") (Expr.var "R")))) = Except.ok t2 ∧
      exprToStr t2 = exprToStr (Expr.imp (Expr.not (Expr.var "P"))
        (Expr.and (Expr.var "Q") (Expr.var "R"))) :=
  c6_parse_roundtrip _ (by decide)

/-- C7: the canonical printer is injective on tree shape for data-model
variable names: distinct trees render to different strings, so the
canonical string is a sound equality and deduplication key. -/
theorem c7_exprToStr_injective (t u : Expr) (ht : wfExprSpec t = true)
    (hu : wfExprSpec u = true) (hne : t ≠ u) : exprToStr t ≠ exprToStr u := by
  intro heq
  have h1 := parseFromString_exprToStr (wfExprSpec_wfExpr ht)
  have h2 := parseFromString_exprToStr (wfExprSpec_wfExpr hu)
  rw [heq] at h1
  rw [h2] at h1
  injection h1 with h3
  exact hne h3.symm

/-- Witness for C7 at the concrete distinct trees `P` and `~P`. -/
theorem c7_exprToStr_injective_witness :
    exprToStr (Expr.var "P") ≠ exprToStr (Expr.not (Expr.var "P")) :=
  c7_exprToStr_injective _ _ (by decide) (by decide) (by decide)

/-- C8 (amended): Conjunction Introduction is a no-op unless the overall
goal is a conjunction; when it fires on a snapshot pair `(e, f)` matching
the goal's operands in either order, the fact added is `And(e, f)` in pair
order (not re-rendered); its canonical string equals the goal's exactly
when `e` matches `goalL` and `f` matches `goalR` (third conjunct, via
injectivity of the canonical rendering). -/
theorem c8_conjIntro_behavior :
    (∀ (goalExpr : Expr) (gs : String) (e f : Expr) (st : Facts × Bool),
      (∀ gl gr, goalExpr ≠ Expr.and gl gr) → conjIntroStep goalExpr gs e f st = .ok st) ∧
    (∀ (gl gr : Expr) (gs : String) (e f : Expr) (st : Facts × Bool),
      exprToStr e ≠ exprToStr f → hasKey st.1 (exprToStr e) = true →
      hasKey st.1 (exprToStr f) = true →
      ((exprToStr e = exprToStr gl ∧ exprToStr f = exprToStr gr) ∨
       (exprToStr f = exprToStr gl ∧ exprToStr e = exprToStr gr)) →
      conjIntroStep (Expr.and gl gr) gs e f st =
        addTrack gs st (Expr.and e f)
          ("Conjunction Introduction from " ++ exprToStr e ++ " and " ++ exprToStr f)
          [exprToStr e, exprToStr f]) ∧
    (∀ e f gl gr : Expr, wfExprSpec e = true → wfExprSpec f = true →
      wfExprSpec gl = true → wfExprSpec gr = true →
      (exprToStr (Expr.and e f) = exprToStr (Expr.and gl gr) ↔ (e = gl ∧ f = gr))) := by
  refine ⟨?_, ?_, ?_⟩
  · intro goalExpr gs e f st h
    cases goalExpr with
    | and gl gr => exact absurd rfl (h gl gr)
    | var n => simp [conjIntroStep]
    | not u => simp [conjIntroStep]
    | or a b => simp [conjIntroStep]
    | imp a b => simp [conjIntroStep]
  · intro gl gr gs e f st h1 h2 h3 h4
    simp only [conjIntroStep]
    rw [if_pos ⟨h1, h2, h3⟩, if_pos h4]
  · intro e f gl gr he hf hgl hgr
    constructor
    · intro heq
      have hwf1 : wfExpr (Expr.and e f) = true := by
        have h1 := wfExprSpec_wfExpr he
        have h2 := wfExprSpec_wfExpr hf
        simp [wfExpr, h1, h2]
      have hwf2 : wfExpr (Expr.and gl gr) = true := by
        have h1 := wfExprSpec_wfExpr hgl
        have h2 := wfExprSpec_wfExpr hgr
        simp [wfExpr, h1, h2]
      have p1 := parseFromString_exprToStr hwf1
      have p2 := parseFromString_exprToStr hwf2
      rw [heq, p2] at p1
      injection p1 with p3
      injection p3 with p4 p5
      exact ⟨p4.symm, p5.symm⟩
    · rintro ⟨rfl, rfl⟩
      rfl

/-- Witness for the amended C8 at a concrete swapped pair: with goal
`And(A, B)` and the snapshot pair `(B, A)`, the fact added is `And(B, A)`. -/
theorem c8_conjIntro_behavior_witness :
    conjIntroStep (Expr.and (Expr.var "A") (Expr.var "B")) "(A & B)"
      (Expr.var "B") (Expr.var "A")
      ([⟨"B", Expr.var "B", "Premise 1", [], 1⟩,
        ⟨"A", Expr.var "A", "Premise 2", [], 2⟩], false) =
      addTrack "(A & B)"
        ([⟨"B", Expr.var "B", "Premise 1", [], 1⟩,
          ⟨"A", Expr.var "A", "Premise 2", [], 2⟩], false)
        (Expr.and (Expr.var "B") (Expr.var "A"))
        ("Conjunction Introduction from " ++ exprToStr (Expr.var "B") ++ " and " ++
          exprToStr (Expr.var "A"))
        [exprToStr (Expr.var "B"), exprToStr (Expr.var "A")] :=
  c8_conjIntro_behavior.2.1 (Expr.var "A") (Expr.var "B") "(A & B)"
    (Expr.var "B") (Expr.var "A") _
    (by decide) (by decide) (by decide) (Or.inr (by decide))

/-! ### C9: the parser's actual error behavior -/

theorem c9_counterexample :
    parseFromString "&" = Except.ok (Expr.var "&") ∧ validNameSpec "&" = false := by
  constructor
  · simp [parseFromString, parseImplicationCore, parseOrCore, orLoopCore, parseAndCore,
      andLoopCore, parseNotCore, parsePrimaryCore, tokenize, wordsAux, preprocess,
      weakenP, isSpecialChar]
  · decide

theorem c9_parser_error_behavior :
    (∀ (t : String) (rest : List String), t ≠ "(" →
      parsePrimary (t :: rest) = .ok (Expr.var t, rest)) ∧
    (parsePrimary [] = .error ParseError.unexpectedEnd) ∧
    (∀ (rest : List String) (e : Expr) (rest2 : List String),
      parseImplication rest = .ok (e, rest2) → rest2.head? ≠ some ")" →
      parsePrimary ("(" :: rest) = .error ParseError.missingClose) ∧
    (∀ (s : String) (e : Expr),
      parseFromString s = .ok e ↔ parseImplication (tokenize s) = .ok (e, [])) ∧
    (∀ (s : String) (e : Expr) (t : String) (ts : List String),
      parseImplication (tokenize s) = .ok (e, t :: ts) →
      parseFromString s = .error (ParseError.unexpectedToken t)) ∧
    (parseFromString "" = .error ParseError.unexpectedEnd ∧
     parseFromString "(P" = .error ParseError.missingClose ∧
     parseFromString "P Q" = .error (ParseError.unexpectedToken "Q")) := by
  refine ⟨fun t rest ht => parsePrimary_var rest ht, parsePrimary_nil,
    fun rest e rest2 h hr => parsePrimary_paren_missing h hr, ?_, ?_, ?_, ?_, ?_⟩
  · intro s e
    simp only [parseFromString, parseImplication]
    cases hx : parseImplicationCore (tokenize s) with
    | error e2 => simp [Except.map]
    | ok p =>
      obtain ⟨e2, ⟨rest, hle⟩⟩ := p
      cases rest with
      | nil => simp [Except.map]
      | cons t ts => simp [Except.map]
  · intro s e t ts h
    simp only [parseFromString, parseImplication] at h ⊢
    cases hx : parseImplicationCore (tokenize s) with
    | error e2 => rw [hx] at h; exact absurd h (by simp [Except.map])
    | ok p =>
      obtain ⟨e2, ⟨rest, hle⟩⟩ := p
      rw [hx] at h
      simp only [Except.map, Except.ok.injEq, Prod.mk.injEq] at h
      obtain ⟨-, hr⟩ := h
      subst hr
      simp
  · simp [parseFromString, parseImplicationCore, parseOrCore, orLoopCore, parseAndCore,
      andLoopCore, parseNotCore, parsePrimaryCore, tokenize, wordsAux, preprocess,
      weakenP, isSpecialChar]
  · simp [parseFromString, parseImplicationCore, parseOrCore, orLoopCore, parseAndCore,
      andLoopCore, parseNotCore, parsePrimaryCore, tokenize, wordsAux, preprocess,
      weakenP, isSpecialChar]
  · simp [parseFromString, parseImplicationCore, parseOrCore, orLoopCore, parseAndCore,
      andLoopCore, parseNotCore, parsePrimaryCore, tokenize, wordsAux, preprocess,
      weakenP, isSpecialChar]

theorem c9_parser_error_behavior_witness :
    parsePrimary ["&"] = .ok (Expr.var "&", []) :=
  c9_parser_error_behavior.1 "&" [] (by decide)
